import Mathlib

/-!
# Verification of the `tree` arena-based ordered tree collection

Shallow embedding of `src/tree.rs`: a generic arbitrary-branching ordered
tree stored in a flat arena (`Vec<Node<T>>` becomes `List (Node T)`), with
intrusive parent/sibling/child links by integer id, a free list of recycled
slots, preorder traversal, structural editing, and the binary serialization
codec.  Rust `usize` ids become `Nat`; `Option<usize>` becomes `Option Nat`;
fallible methods returning `Result<_, TreeErr>` become `Except TreeErr _`;
methods taking `&mut self` become state-passing functions returning the new
tree.  Graph-recursive traversals take an explicit fuel argument (the source
recursion terminates because well-formed trees are acyclic; fuel
`nodes.length + 1` is always sufficient for such trees).
-/

set_option maxHeartbeats 1000000

namespace Src

/-- `Node<T>` of the source: per-slot intrusive links plus optional payload
(`data = none` marks the slot free). -/
structure Node (T : Type) where
  parent : Option Nat
  prev_sib : Option Nat
  next_sib : Option Nat
  first_child : Option Nat
  last_child : Option Nat
  data : Option T
  deriving DecidableEq, Repr

instance : Inhabited (Node T) := ⟨⟨none, none, none, none, none, none⟩⟩

/-- `Node::new(data)`: a fresh node with no relations. -/
def Node.new (data : T) : Node T := ⟨none, none, none, none, none, some data⟩

/-- `NodeInfo`: id with child count and depth, as produced by the info
traversals. -/
structure NodeInfo where
  id : Nat
  child_count : Nat
  depth : Nat
  deriving DecidableEq, Repr

/-- The four relative placements (`Position` in the source). -/
inductive Position where
  | FirstChild
  | LastChild
  | SiblingBefore
  | SiblingAfter
  deriving DecidableEq, Repr

/-- `TreeErr` of the source. -/
inductive TreeErr where
  | InvalidId
  | CantBeRoot
  | CantMoveIntoChild
  deriving DecidableEq, Repr

/-- The tree: arena of slots, free-list head, root id, node count. -/
structure Tree (T : Type) where
  nodes : List (Node T)
  free : Option Nat
  root : Option Nat
  len : Nat
  deriving DecidableEq, Repr

/-- Read slot `id` (out-of-range reads give the default empty node; the
source would panic, which never happens on the in-range accesses all
operations perform on valid ids). -/
def Tree.nodeAt (t : Tree T) (id : Nat) : Node T := t.nodes.getD id default

/-- Write slot `id` (out of range: no-op, matching the convention of
`Tree.nodeAt`). -/
def Tree.setNode (t : Tree T) (id : Nat) (n : Node T) : Tree T :=
  { t with nodes := t.nodes.set id n }

/-- `Tree::new()`. -/
def Tree.new : Tree T := ⟨[], none, none, 0⟩

/-- `Tree::new_with_root(data)`. -/
def Tree.new_with_root (data : T) : Tree T := ⟨[Node.new data], none, some 0, 1⟩

/-- `Tree::valid_node`. -/
def Tree.valid_node (t : Tree T) (id : Nat) : Except TreeErr Unit :=
  if t.nodes.length ≤ id then .error .InvalidId
  else if (t.nodeAt id).data.isNone then .error .InvalidId
  else .ok ()

/-- `Tree::valid_sib`.  The source compares `id == self.root.unwrap()`;
on a tree whose root is `none` that unwrap panics, a state unreachable
through the public API once any node is occupied, so we model the
comparison as `some id = t.root`. -/
def Tree.valid_sib (t : Tree T) (id : Nat) : Except TreeErr Unit :=
  if t.nodes.length ≤ id then .error .InvalidId
  else if (t.nodeAt id).data.isNone then .error .InvalidId
  else if t.root = some id then .error .CantBeRoot
  else .ok ()

/-- `Tree::push_free`: clear the slot, reusing `next_sib` as the free-list
link, and decrement `len`. -/
def Tree.push_free (t : Tree T) (id : Nat) : Tree T :=
  let t1 := t.setNode id ⟨none, none, t.free, none, none, none⟩
  { t1 with free := some id, len := t1.len - 1 }

/-- `Tree::pop_free`. -/
def Tree.pop_free (t : Tree T) : Tree T × Option Nat :=
  match t.free with
  | some id =>
      let t1 := { t with free := (t.nodeAt id).next_sib }
      let t2 := t1.setNode id { t1.nodeAt id with next_sib := none }
      (t2, some id)
  | none => (t, none)

/-- `Tree::get_node`: allocate a slot for `data` (pop the free list, else
grow the arena), incrementing `len`; returns the new id. -/
def Tree.get_node (t : Tree T) (data : T) : Tree T × Nat :=
  let t0 := { t with len := t.len + 1 }
  match t0.pop_free with
  | (t1, some id) => (t1.setNode id { t1.nodeAt id with data := some data }, id)
  | (t1, none) => ({ t1 with nodes := t1.nodes ++ [Node.new data] }, t1.nodes.length)

/-- `Tree::append_child`, statement by statement. -/
def Tree.append_child (t : Tree T) (parent_id new_id : Nat) : Tree T :=
  let t1 := t.setNode new_id { t.nodeAt new_id with prev_sib := (t.nodeAt parent_id).last_child }
  let t2 := match (t1.nodeAt new_id).prev_sib with
    | some prev => t1.setNode prev { t1.nodeAt prev with next_sib := some new_id }
    | none => t1
  let t3 := t2.setNode new_id { t2.nodeAt new_id with parent := some parent_id }
  let t4 := t3.setNode parent_id { t3.nodeAt parent_id with last_child := some new_id }
  if (t4.nodeAt parent_id).first_child.isNone then
    t4.setNode parent_id { t4.nodeAt parent_id with first_child := some new_id }
  else t4

/-- `Tree::prepend_child`, statement by statement. -/
def Tree.prepend_child (t : Tree T) (parent_id new_id : Nat) : Tree T :=
  let t1 := t.setNode new_id { t.nodeAt new_id with next_sib := (t.nodeAt parent_id).first_child }
  let t2 := match (t1.nodeAt new_id).next_sib with
    | some next => t1.setNode next { t1.nodeAt next with prev_sib := some new_id }
    | none => t1
  let t3 := t2.setNode new_id { t2.nodeAt new_id with parent := some parent_id }
  let t4 := t3.setNode parent_id { t3.nodeAt parent_id with first_child := some new_id }
  if (t4.nodeAt parent_id).last_child.isNone then
    t4.setNode parent_id { t4.nodeAt parent_id with last_child := some new_id }
  else t4

/-- `Tree::add_sibling_before`, statement by statement. -/
def Tree.add_sibling_before (t : Tree T) (sibling_id new_id : Nat) : Tree T :=
  let t1 := t.setNode new_id { t.nodeAt new_id with
    next_sib := some sibling_id
    prev_sib := (t.nodeAt sibling_id).prev_sib
    parent := (t.nodeAt sibling_id).parent }
  let t2 := t1.setNode sibling_id { t1.nodeAt sibling_id with prev_sib := some new_id }
  match (t2.nodeAt new_id).prev_sib with
  | some prev_sib_id =>
      t2.setNode prev_sib_id { t2.nodeAt prev_sib_id with next_sib := some new_id }
  | none =>
      match (t2.nodeAt new_id).parent with
      | some parent_id =>
          t2.setNode parent_id { t2.nodeAt parent_id with first_child := some new_id }
      | none => t2

/-- `Tree::add_sibling_after`, statement by statement. -/
def Tree.add_sibling_after (t : Tree T) (sibling_id new_id : Nat) : Tree T :=
  let t1 := t.setNode new_id { t.nodeAt new_id with
    prev_sib := some sibling_id
    next_sib := (t.nodeAt sibling_id).next_sib
    parent := (t.nodeAt sibling_id).parent }
  let t2 := t1.setNode sibling_id { t1.nodeAt sibling_id with next_sib := some new_id }
  match (t2.nodeAt new_id).next_sib with
  | some next_sib_id =>
      t2.setNode next_sib_id { t2.nodeAt next_sib_id with prev_sib := some new_id }
  | none =>
      match (t2.nodeAt new_id).parent with
      | some parent_id =>
          t2.setNode parent_id { t2.nodeAt parent_id with last_child := some new_id }
      | none => t2

/-- `Tree::attach`. -/
def Tree.attach (t : Tree T) (attaching : Nat) (in_position : Position) (node : Nat) : Tree T :=
  match in_position with
  | .FirstChild => t.prepend_child node attaching
  | .LastChild => t.append_child node attaching
  | .SiblingBefore => t.add_sibling_before node attaching
  | .SiblingAfter => t.add_sibling_after node attaching

/-- First half of `Tree::decouple`: route the forward link around `id`
(fix the previous sibling's `next_sib`, or the parent's `first_child`). -/
def decoupleA (t : Tree T) (id : Nat) : Tree T :=
  match (t.nodeAt id).prev_sib with
  | some prev => t.setNode prev { t.nodeAt prev with next_sib := (t.nodeAt id).next_sib }
  | none =>
      match (t.nodeAt id).parent with
      | some parent =>
          t.setNode parent { t.nodeAt parent with first_child := (t.nodeAt id).next_sib }
      | none => t

/-- Second half of `Tree::decouple`: route the backward link around `id`
(fix the next sibling's `prev_sib`, or the parent's `last_child`), reading
the current state as the source does. -/
def decoupleB (t1 : Tree T) (id : Nat) : Tree T :=
  match (t1.nodeAt id).next_sib with
  | some next => t1.setNode next { t1.nodeAt next with prev_sib := (t1.nodeAt id).prev_sib }
  | none =>
      match (t1.nodeAt id).parent with
      | some parent =>
          t1.setNode parent { t1.nodeAt parent with last_child := (t1.nodeAt id).prev_sib }
      | none => t1

/-- `Tree::decouple`: splice `id` out of its sibling list (its own `parent`,
children and sibling fields are not touched). -/
def Tree.decouple (t : Tree T) (id : Nat) : Tree T := decoupleB (decoupleA t id) id

/-! ## Traversal engine

The source traversals recurse along `first_child` / `next_sib` links; they
terminate because valid trees are acyclic.  The embedding makes the walks
total with an explicit fuel argument: sibling walks carry their own fuel
(`sibFuel`, one more than the arena size, enough for any duplicate-free
chain), and the depth recursion of each traversal decrements one fuel unit
per level (`defaultFuel`, also `nodes.length + 1`, enough for any tree whose
height is at most its node count). -/

/-- Walk along `next_sib` links starting at `c`: `some l` when the walk
reaches `none` within `fuel` steps, `none` when fuel runs out (which on a
valid tree means a link cycle, impossible). -/
def chainN (t : Tree T) : Nat → Option Nat → Option (List Nat)
  | _, none => some []
  | 0, some _ => none
  | fuel + 1, some c => (chainN t fuel (t.nodeAt c).next_sib).map (c :: ·)

/-- Fuel that always suffices for a duplicate-free sibling walk. -/
def sibFuel (t : Tree T) : Nat := t.nodes.length + 1

/-- The list of children of `id` in sibling order: the `while let` walk from
`first_child` along `next_sib` that every source traversal performs. -/
def childIds (t : Tree T) (id : Nat) : List Nat :=
  (chainN t (sibFuel t) (t.nodeAt id).first_child).getD []

/-- Fuel that always suffices for the depth recursion on a valid tree. -/
def defaultFuel (t : Tree T) : Nat := t.nodes.length + 1

/-- `Tree::descendants_of_helper`: for each child, emit it and recurse into
it (preorder, strictly below `id`). -/
def descAux (t : Tree T) : Nat → Nat → List Nat
  | 0, _ => []
  | fuel + 1, id => (childIds t id).flatMap fun c => c :: descAux t fuel c

/-- `id` followed by its descendants; same list as the source `sub_tree`
(see `subTreeAux_eq_cons_descAux`), in the shape convenient for induction. -/
def subTreeAux (t : Tree T) : Nat → Nat → List Nat
  | 0, _ => []
  | fuel + 1, id => id :: (childIds t id).flatMap (subTreeAux t fuel)

/-- `Tree::sub_tree_info_helper`: preorder entries `{id, child_count, depth}`
(the source pushes the entry, then bumps its `child_count` once per child
while recursing; the final count is the number of children). -/
def subTreeInfoAux (t : Tree T) : Nat → Nat → Nat → List NodeInfo
  | 0, _, _ => []
  | fuel + 1, id, cur =>
      ⟨id, (childIds t id).length, cur⟩ ::
        (childIds t id).flatMap fun c => subTreeInfoAux t fuel c (cur + 1)

/-- `Tree::sub_tree_depth` with its helper folded into one function: the
source pushes `id`, then, when `depth > 0`, runs `sub_tree_depth_helper`
with `depth - 1`, whose loop pushes each child and recurses only while its
countdown is positive.  Folding the off-by-one of the helper's countdown
into the recursion gives: emit `id`; when `d > 0`, recurse into each child
with `d - 1`. -/
def subTreeDepthAux (t : Tree T) : Nat → Nat → Nat → List Nat
  | 0, _, _ => []
  | fuel + 1, id, d =>
      id :: (if 0 < d then (childIds t id).flatMap fun c => subTreeDepthAux t fuel c (d - 1) else [])

/-- `Tree::sub_tree_depth_info_helper`: push the entry with its full child
count, recurse into children only while `cur_depth < target`. -/
def subTreeDepthInfoAux (t : Tree T) : Nat → Nat → Nat → Nat → List NodeInfo
  | 0, _, _, _ => []
  | fuel + 1, id, cur, target =>
      ⟨id, (childIds t id).length, cur⟩ ::
        (if cur < target then
          (childIds t id).flatMap fun c => subTreeDepthInfoAux t fuel c (cur + 1) target
        else [])

/-- `Tree::descendants_of`. -/
def Tree.descendants_of (t : Tree T) (id : Nat) : Except TreeErr (List Nat) :=
  (t.valid_node id).map fun _ => descAux t (defaultFuel t) id

/-- `Tree::sub_tree`. -/
def Tree.sub_tree (t : Tree T) (id : Nat) : Except TreeErr (List Nat) :=
  (t.valid_node id).map fun _ => id :: descAux t (defaultFuel t) id

/-- `Tree::sub_tree_info`. -/
def Tree.sub_tree_info (t : Tree T) (id : Nat) : Except TreeErr (List NodeInfo) :=
  (t.valid_node id).map fun _ => subTreeInfoAux t (defaultFuel t) id 0

/-- `Tree::sub_tree_depth`. -/
def Tree.sub_tree_depth (t : Tree T) (id depth : Nat) : Except TreeErr (List Nat) :=
  (t.valid_node id).map fun _ => subTreeDepthAux t (defaultFuel t) id depth

/-- `Tree::sub_tree_depth_info`. -/
def Tree.sub_tree_depth_info (t : Tree T) (id depth : Nat) : Except TreeErr (List NodeInfo) :=
  (t.valid_node id).map fun _ => subTreeDepthInfoAux t (defaultFuel t) id 0 depth

/-- `Tree::children_of`: the sibling walk from `first_child` along
`next_sib`. -/
def Tree.children_of (t : Tree T) (id : Nat) : Except TreeErr (List Nat) :=
  (t.valid_node id).map fun _ => childIds t id

/-! ## Mutation API -/

/-- `Tree::new_node`. -/
def Tree.new_node (t : Tree T) (data : T) (in_position : Position) (node : Nat) :
    Tree T × Except TreeErr Nat :=
  let v := match in_position with
    | .FirstChild | .LastChild => t.valid_node node
    | .SiblingBefore | .SiblingAfter => t.valid_sib node
  match v with
  | .error e => (t, .error e)
  | .ok _ =>
      let p := t.get_node data
      (Tree.attach p.1 p.2 in_position node, .ok p.2)

/-- `Tree::remove`: decouple, then free every descendant (computed on the
decoupled tree, as the source does) and finally the node itself. -/
def Tree.remove (t : Tree T) (id : Nat) : Tree T × Except TreeErr Unit :=
  match t.valid_node id with
  | .error e => (t, .error e)
  | .ok _ =>
      let t1 := t.decouple id
      let t2 := (descAux t1 (defaultFuel t1) id).foldl Tree.push_free t1
      (t2.push_free id, .ok ())

/-- `Tree::data_at` (the source unwraps the payload after `valid_node`; the
`none` fallback branch is unreachable). -/
def Tree.data_at (t : Tree T) (id : Nat) : Except TreeErr T :=
  match t.valid_node id, (t.nodeAt id).data with
  | .error e, _ => .error e
  | .ok _, some d => .ok d
  | .ok _, none => .error .InvalidId

/-- `Tree::get_root`. -/
def Tree.get_root (t : Tree T) : Option Nat := t.root

/-- `Tree::new_root`: remove the whole existing tree (if any), then allocate
the new root.  The source unwraps the inner `remove`, which cannot fail when
`root` points at an occupied slot. -/
def Tree.new_root (t : Tree T) (data : T) : Tree T × Nat :=
  let t1 := match t.root with
    | some id => (t.remove id).1
    | none => t
  let p := t1.get_node data
  ({ p.1 with root := some p.2 }, p.2)

/-- `Tree::make_root`: decouple `id`, remove the old root's remaining tree,
set `id` as root.  The source unwraps `self.root`; the `none` branch is
unreachable whenever an occupied node exists. -/
def Tree.make_root (t : Tree T) (id : Nat) : Tree T × Except TreeErr Unit :=
  match t.valid_node id with
  | .error e => (t, .error e)
  | .ok _ =>
      let t1 := t.decouple id
      let t2 := match t1.root with
        | some r => (t1.remove r).1
        | none => t1
      ({ t2 with root := some id }, .ok ())

/-- `Tree::parent_of`. -/
def Tree.parent_of (t : Tree T) (id : Nat) : Except TreeErr (Option Nat) :=
  (t.valid_node id).map fun _ => (t.nodeAt id).parent

/-- `Tree::next_sib_of`. -/
def Tree.next_sib_of (t : Tree T) (id : Nat) : Except TreeErr (Option Nat) :=
  (t.valid_node id).map fun _ => (t.nodeAt id).next_sib

/-- `Tree::prev_sib_of`. -/
def Tree.prev_sib_of (t : Tree T) (id : Nat) : Except TreeErr (Option Nat) :=
  (t.valid_node id).map fun _ => (t.nodeAt id).prev_sib

/-- `Tree::first_child_of`. -/
def Tree.first_child_of (t : Tree T) (id : Nat) : Except TreeErr (Option Nat) :=
  (t.valid_node id).map fun _ => (t.nodeAt id).first_child

/-- `Tree::last_child_of`. -/
def Tree.last_child_of (t : Tree T) (id : Nat) : Except TreeErr (Option Nat) :=
  (t.valid_node id).map fun _ => (t.nodeAt id).last_child

/-- `Tree::valid_move`: both ids valid, and `new_place` not inside
`sub_tree(moving)`. -/
def Tree.valid_move (t : Tree T) (moving new_place : Nat) : Except TreeErr Unit :=
  match t.valid_node moving with
  | .error e => .error e
  | .ok _ =>
      match t.valid_node new_place with
      | .error e => .error e
      | .ok _ =>
          if new_place ∈ moving :: descAux t (defaultFuel t) moving then
            .error .CantMoveIntoChild
          else .ok ()

/-- `Tree::move_to`. -/
def Tree.move_to (t : Tree T) (moving : Nat) (in_position : Position) (node : Nat) :
    Tree T × Except TreeErr Unit :=
  match t.valid_move moving node with
  | .error e => (t, .error e)
  | .ok _ => (Tree.attach (t.decouple moving) moving in_position node, .ok ())

/-- `Tree::clone_children` with the loop unrolled into recursion on the
current `old_child` cursor, reading each link from the tree state current at
that point, as the source does.  Fuel decreases once per call. -/
def cloneStep : Nat → Tree T → Option Nat → Nat → Tree T
  | 0, t, _, _ => t
  | _ + 1, t, none, _ => t
  | fuel + 1, t, some old_child, new_parent =>
      match (t.nodeAt old_child).data with
      | none => t
      | some d =>
          let p := t.get_node d
          let t2 := Tree.append_child p.1 new_parent p.2
          let t3 := cloneStep fuel t2 ((t2.nodeAt old_child).first_child) p.2
          cloneStep fuel t3 ((t3.nodeAt old_child).next_sib) new_parent

/-- Fuel sufficient for `cloneStep` on valid trees (each cloned node costs
at most two recursion levels). -/
def cloneFuel (t : Tree T) : Nat := 2 * t.nodes.length + 2

/-- `Tree::clone_node` (payload unwrap is guarded by `valid_node` in the
caller; the `none` branch is unreachable). -/
def Tree.clone_node (t : Tree T) (fuel : Nat) (id : Nat) : Tree T × Nat :=
  match (t.nodeAt id).data with
  | none => (t, id)
  | some d =>
      let p := t.get_node d
      (cloneStep fuel p.1 ((p.1.nodeAt id).first_child) p.2, p.2)

/-- `Tree::clone_to`. -/
def Tree.clone_to (t : Tree T) (cloning : Nat) (in_position : Position) (node : Nat) :
    Tree T × Except TreeErr Nat :=
  match t.valid_node cloning with
  | .error e => (t, .error e)
  | .ok _ =>
      match t.valid_node node with
      | .error e => (t, .error e)
      | .ok _ =>
          let p := t.clone_node (cloneFuel t) cloning
          (Tree.attach p.1 p.2 in_position node, .ok p.2)

/-! ## Serialization codec

The scalar byte codecs come from the external `bytebuffer` crate, which is
not part of this repository; the spec treats them as a supplied capability
(one byte per boolean, four bytes per `u32`, decode failing on
malformed/insufficient data), so they are modelled from the spec below.
The tree codec itself (`TreeIter` / `from_bytes`) is embedded from the
source. -/

/-- Modelled from the spec: the error of the external byte codec —
"malformed/insufficient data". -/
inductive ByteErr where
  | EndOfBytes
  deriving DecidableEq, Repr

/-- Modelled from the spec: the external boolean codec produces exactly one
byte; `false` encodes to a zero byte. -/
def boolIntoBytes (b : Bool) : List Nat := [if b then 1 else 0]

/-- Modelled from the spec: boolean decode, consuming one byte. -/
def boolFromBytes : List Nat → Except ByteErr (Bool × List Nat)
  | [] => .error .EndOfBytes
  | b :: rest => .ok (b != 0, rest)

/-- Modelled from the spec: the external `u32` codec produces exactly four
bytes (little-endian here; the claims only use that decode inverts encode).
The source writes `child_count as u32`, a truncating cast, hence the
`% 2 ^ 32`. -/
def u32IntoBytes (n : Nat) : List Nat :=
  [n % 2 ^ 32 % 256, n % 2 ^ 32 / 2 ^ 8 % 256, n % 2 ^ 32 / 2 ^ 16 % 256, n % 2 ^ 32 / 2 ^ 24 % 256]

/-- Modelled from the spec: `u32` decode, consuming four bytes. -/
def u32FromBytes : List Nat → Except ByteErr (Nat × List Nat)
  | b0 :: b1 :: b2 :: b3 :: rest =>
      .ok (b0 + 2 ^ 8 * b1 + 2 ^ 16 * b2 + 2 ^ 24 * b3, rest)
  | _ => .error .EndOfBytes

/-- The payload read the serializer performs (`data_at(id).unwrap()`): the
unwrap is modelled by the `Inhabited` default on the unreachable free-slot
case. -/
def payloadD [Inhabited T] (t : Tree T) (id : Nat) : T := (t.nodeAt id).data.getD default

/-- `IntoBytes for Tree` / `TreeIter`: the byte stream the lazy iterator
yields, materialized.  `TreeIter::new` emits the root-presence flag and
captures `sub_tree_info(root)`; each `next` then streams, per preorder node,
the payload's bytes followed by the child count as `u32`. -/
def Tree.into_bytes [Inhabited T] (enc : T → List Nat) (t : Tree T) : List Nat :=
  boolIntoBytes t.root.isSome ++
    match t.root with
    | none => []
    | some r =>
        (subTreeInfoAux t (defaultFuel t) r 0).flatMap fun n =>
          enc (payloadD t n.id) ++ u32IntoBytes n.child_count

mutual

/-- `Tree::from_bytes_helper`, split into the count read (`fbHelper`) and
the child loop (`fbLoop`): read a `u32` count `n`; `n` times decode a
payload, allocate it, append it as last child of `parent`, and recurse into
it.  `fuel` bounds the recursion depth; the source recursion terminates
because each level consumes the four count bytes, and depth fuel
`bytes.length + 1` (used by `Tree.from_bytes`) always suffices. -/
def fbHelper (dec : List Nat → Except ByteErr (T × List Nat)) :
    (fuel : Nat) → Tree T → Nat → List Nat → Except ByteErr (Tree T × List Nat)
  | 0, _, _, _ => .error .EndOfBytes
  | fuel + 1, t, parent, bytes =>
      match u32FromBytes bytes with
      | .error e => .error e
      | .ok (n, rest) => fbLoop dec fuel n t parent rest
  termination_by fuel => (fuel, 0)

/-- The `for _ in 0..count` loop body of `Tree::from_bytes_helper`. -/
def fbLoop (dec : List Nat → Except ByteErr (T × List Nat)) :
    (fuel : Nat) → (n : Nat) → Tree T → Nat → List Nat → Except ByteErr (Tree T × List Nat)
  | _, 0, t, _, bytes => .ok (t, bytes)
  | fuel, n + 1, t, parent, bytes =>
      match dec bytes with
      | .error e => .error e
      | .ok (d, rest) =>
          let p := t.get_node d
          let t2 := Tree.append_child p.1 parent p.2
          match fbHelper dec fuel t2 p.2 rest with
          | .error e => .error e
          | .ok (t3, rest2) => fbLoop dec fuel n t3 parent rest2
  termination_by fuel n => (fuel, n)

end

/-- `FromBytes for Tree::from_bytes`: read the root flag; an empty tree on
`false`, else decode the root payload into `new_with_root` and fill in the
children recursively. -/
def Tree.from_bytes (dec : List Nat → Except ByteErr (T × List Nat)) (bytes : List Nat) :
    Except ByteErr (Tree T) :=
  match boolFromBytes bytes with
  | .error e => .error e
  | .ok (false, _) => .ok Tree.new
  | .ok (true, rest) =>
      match dec rest with
      | .error e => .error e
      | .ok (d, rest2) =>
          match fbHelper dec (bytes.length + 1) (Tree.new_with_root d) 0 rest2 with
          | .error e => .error e
          | .ok (t, _) => .ok t

/-! ## Specification-side structures

Rose trees name the mathematical shape that an arena tree's preorder
structure denotes.  They are used to state and prove the serialization
round trip: the encoder factors through the rose tree extracted from the
arena, and the decoder builds an arena whose slots are the rose tree laid
out in preorder. -/

/-- A rose tree: payload and ordered children. -/
inductive RTree (T : Type) where
  | node : T → List (RTree T) → RTree T

mutual

/-- Number of nodes of a rose tree. -/
def RTree.size : RTree T → Nat
  | .node _ cs => 1 + sizeListR cs

/-- Total number of nodes of a rose forest. -/
def sizeListR : List (RTree T) → Nat
  | [] => 0
  | c :: cs => RTree.size c + sizeListR cs

end

mutual

/-- Height (number of levels) of a rose tree. -/
def RTree.height : RTree T → Nat
  | .node _ cs => heightListR cs + 1

/-- Maximum height over a rose forest. -/
def heightListR : List (RTree T) → Nat
  | [] => 0
  | c :: cs => max (RTree.height c) (heightListR cs)

end

mutual

/-- Preorder flattening: `(payload, child count)` per node. -/
def RTree.flat : RTree T → List (T × Nat)
  | .node x cs => (x, cs.length) :: flatListR cs

/-- Preorder flattening of a forest. -/
def flatListR : List (RTree T) → List (T × Nat)
  | [] => []
  | c :: cs => RTree.flat c ++ flatListR cs

end

mutual

/-- The wire format of one node: payload bytes, 4-byte child count, then
the children in order. -/
def encR (enc : T → List Nat) : RTree T → List Nat
  | .node x cs => enc x ++ u32IntoBytes cs.length ++ encListR enc cs

/-- The wire format of a forest: the children's blocks concatenated. -/
def encListR (enc : T → List Nat) : List (RTree T) → List Nat
  | [] => []
  | c :: cs => encR enc c ++ encListR enc cs

end

/-- The rose tree denoted by the arena subtree at `id` (up to `fuel`
levels). -/
def extractR [Inhabited T] (t : Tree T) : Nat → Nat → RTree T
  | 0, id => .node (payloadD t id) []
  | fuel + 1, id => .node (payloadD t id) ((childIds t id).map (extractR t fuel))

/-- Traversal well-formedness at `id`, up to `fuel` levels: every sibling
walk below `id` terminates and the subtree height is below `fuel`.  Holds
with fuel `defaultFuel` for every tree reachable through the public API. -/
def travOk (t : Tree T) : Nat → Nat → Bool
  | 0, _ => false
  | fuel + 1, id =>
      (chainN t (sibFuel t) (t.nodeAt id).first_child).isSome &&
        (childIds t id).all (travOk t fuel)

mutual

/-- The arena effect of decoding one node block under `parent`: allocate
the payload, append as last child, then push the children in order — the
loop body of `from_bytes_helper`, expressed on rose trees. -/
def pushTree : Tree T → Nat → RTree T → Tree T
  | t, p, .node x cs =>
      let q := t.get_node x
      pushForest (Tree.append_child q.1 p q.2) q.2 cs

/-- Push a forest under `parent`, left to right. -/
def pushForest : Tree T → Nat → List (RTree T) → Tree T
  | t, _, [] => t
  | t, p, c :: cs => pushForest (pushTree t p c) p cs

end

/-- Arena positions at which the roots of a forest land when its trees are
pushed in preorder starting at slot `base`. -/
def rootsPos : List (RTree T) → Nat → List Nat
  | [], _ => []
  | c :: cs, base => base :: rootsPos cs (base + c.size)

mutual

/-- The arena `t` represents the rose tree at slot `base`: the payload
matches, the sibling walk from `first_child` yields exactly the children's
preorder root positions, and each child region represents its child tree.
This is the state `from_bytes_helper` leaves each decoded region in. -/
def RegionRep (t : Tree T) : Nat → RTree T → Prop
  | base, .node x cs =>
      (t.nodeAt base).data = some x ∧
      chainN t (sibFuel t) (t.nodeAt base).first_child = some (rootsPos cs (base + 1)) ∧
      RegionRepF t (base + 1) cs

/-- Region representation of a forest laid out in preorder from `base`. -/
def RegionRepF (t : Tree T) : Nat → List (RTree T) → Prop
  | _, [] => True
  | base, c :: cs => RegionRep t base c ∧ RegionRepF t (base + c.size) cs

end

/-- The invariant the decoder's arena building keeps about the parent it
appends to: allocation only grows the arena (empty free list), the parent
sits below the build region at `base`, and its child walk terminates,
producing distinct ids inside `[base, length)` whose last element is the
parent's `last_child`. -/
def BuildInv (t : Tree T) (p base : Nat) : Prop :=
  t.free = none ∧ p < base ∧ base ≤ t.nodes.length ∧
  chainN t (sibFuel t) (t.nodeAt p).first_child = some (childIds t p) ∧
  (childIds t p).Nodup ∧
  (∀ c ∈ childIds t p, base ≤ c ∧ c < t.nodes.length) ∧
  (t.nodeAt p).last_child = (childIds t p).getLast?

/-- The arena effect of `pushTree` (one decoded node block) relative to
`BuildInv`: the arena grows by the block's region at the old length, slots
below the old length are untouched except the parent and its previous last
child (whose `next_sib` now points at the new region), the parent gains
exactly one child — the region's root — and the region represents the
pushed tree. -/
def PushTreeSpec (t : Tree T) (p base : Nat) (rt : RTree T) : Prop :=
  (pushTree t p rt).nodes.length = t.nodes.length + rt.size ∧
  (pushTree t p rt).free = none ∧
  (pushTree t p rt).root = t.root ∧
  (pushTree t p rt).len = t.len + rt.size ∧
  (∀ j, j < t.nodes.length → j ≠ p → (t.nodeAt p).last_child ≠ some j →
    (pushTree t p rt).nodeAt j = t.nodeAt j) ∧
  (∀ q, (t.nodeAt p).last_child = some q →
    (pushTree t p rt).nodeAt q = { t.nodeAt q with next_sib := some t.nodes.length }) ∧
  (((pushTree t p rt).nodeAt p).data = (t.nodeAt p).data ∧
    ((pushTree t p rt).nodeAt p).next_sib = (t.nodeAt p).next_sib ∧
    ((pushTree t p rt).nodeAt p).prev_sib = (t.nodeAt p).prev_sib ∧
    ((pushTree t p rt).nodeAt p).parent = (t.nodeAt p).parent) ∧
  childIds (pushTree t p rt) p = childIds t p ++ [t.nodes.length] ∧
  BuildInv (pushTree t p rt) p base ∧
  RegionRep (pushTree t p rt) t.nodes.length rt

/-- The arena effect of `pushForest`: as `PushTreeSpec`, for a whole
forest laid out from the old length. -/
def PushForestSpec (t : Tree T) (p base : Nat) (cs : List (RTree T)) : Prop :=
  (pushForest t p cs).nodes.length = t.nodes.length + sizeListR cs ∧
  (pushForest t p cs).free = none ∧
  (pushForest t p cs).root = t.root ∧
  (pushForest t p cs).len = t.len + sizeListR cs ∧
  (∀ j, j < t.nodes.length → j ≠ p → (t.nodeAt p).last_child ≠ some j →
    (pushForest t p cs).nodeAt j = t.nodeAt j) ∧
  (∀ q, (t.nodeAt p).last_child = some q → cs ≠ [] →
    (pushForest t p cs).nodeAt q = { t.nodeAt q with next_sib := some t.nodes.length }) ∧
  (((pushForest t p cs).nodeAt p).data = (t.nodeAt p).data ∧
    ((pushForest t p cs).nodeAt p).next_sib = (t.nodeAt p).next_sib ∧
    ((pushForest t p cs).nodeAt p).prev_sib = (t.nodeAt p).prev_sib ∧
    ((pushForest t p cs).nodeAt p).parent = (t.nodeAt p).parent) ∧
  childIds (pushForest t p cs) p = childIds t p ++ rootsPos cs t.nodes.length ∧
  BuildInv (pushForest t p cs) p base ∧
  RegionRepF (pushForest t p cs) t.nodes.length cs

/-- The observable the round-trip claim compares: payload and child count
per preorder node (ids may differ between encode source and decode
result). -/
def Tree.shape [Inhabited T] (t : Tree T) : List (T × Nat) :=
  match t.root with
  | none => []
  | some r => (subTreeInfoAux t (defaultFuel t) r 0).map fun n => (payloadD t n.id, n.child_count)

/-- Decidable equality for `Except` results, for the concrete evaluations. -/
instance [DecidableEq E] [DecidableEq A] : DecidableEq (Except E A) := fun x y =>
  match x, y with
  | .ok a, .ok b =>
      if h : a = b then .isTrue (by rw [h])
      else .isFalse (by intro hh; cases hh; exact h rfl)
  | .error a, .error b =>
      if h : a = b then .isTrue (by rw [h])
      else .isFalse (by intro hh; cases hh; exact h rfl)
  | .ok _, .error _ => .isFalse (by intro hh; cases hh)
  | .error _, .ok _ => .isFalse (by intro hh; cases hh)

/-- The three-node tree of the repository's test harness (`make_tree`):
root 0 with children 1 then 2, appended in that order. -/
def exTree : Tree Nat :=
  (((Tree.new_with_root 100).new_node 10 .LastChild 0).1.new_node 20 .LastChild 0).1

/-- A five-node tree: root 0, children 1 and 2; 2 has child 3; 1 has
child 4.  Used as a witness input. -/
def exTree5 : Tree Nat :=
  ((exTree.new_node 21 .LastChild 2).1.new_node 11 .LastChild 1).1

/-! # Theorems -/

/-! ## Basic arena lemmas -/

theorem nodeAt_setNode_self (t : Tree T) (i : Nat) (n : Node T) (h : i < t.nodes.length) :
    (t.setNode i n).nodeAt i = n := by
  simp [Tree.setNode, Tree.nodeAt, List.getD_eq_getElem?_getD, List.getElem?_set_self, h]

theorem nodeAt_setNode_ne (t : Tree T) (i j : Nat) (n : Node T) (h : i ≠ j) :
    (t.setNode i n).nodeAt j = t.nodeAt j := by
  simp [Tree.setNode, Tree.nodeAt, List.getD_eq_getElem?_getD, List.getElem?_set_ne, h]

theorem setNode_length (t : Tree T) (i : Nat) (n : Node T) :
    (t.setNode i n).nodes.length = t.nodes.length := by
  simp [Tree.setNode]

theorem setNode_free (t : Tree T) (i : Nat) (n : Node T) : (t.setNode i n).free = t.free := rfl

theorem setNode_root (t : Tree T) (i : Nat) (n : Node T) : (t.setNode i n).root = t.root := rfl

theorem setNode_len (t : Tree T) (i : Nat) (n : Node T) : (t.setNode i n).len = t.len := rfl

/-- `valid_node` succeeds exactly on in-range occupied slots. -/
theorem valid_node_ok_iff (t : Tree T) (i : Nat) :
    t.valid_node i = .ok () ↔ i < t.nodes.length ∧ (t.nodeAt i).data.isSome := by
  unfold Tree.valid_node
  split_ifs with h1 h2
  · constructor
    · intro h; cases h
    · intro h; exact absurd h.1 (by omega)
  · constructor
    · intro h; cases h
    · intro h
      rw [Option.isNone_iff_eq_none] at h2
      rw [h2] at h
      simp at h
  · constructor
    · intro _
      exact ⟨by omega, by simpa [Option.isSome_iff_ne_none] using h2⟩
    · intro _; rfl

/-- A `valid_node` failure is always `InvalidId`. -/
theorem valid_node_error (t : Tree T) (i : Nat) (e : TreeErr)
    (h : t.valid_node i = .error e) : e = .InvalidId := by
  unfold Tree.valid_node at h
  split at h
  · cases h; rfl
  · split at h
    · cases h; rfl
    · cases h

/-- Allocation with a nonempty free list pops its head. -/
theorem get_node_free_some (t : Tree T) (x : T) (i : Nat) (h : t.free = some i) :
    (t.get_node x).2 = i := by
  simp [Tree.get_node, Tree.pop_free, h]

/-- A successful `remove` leaves the removed id at the head of the free
list (it is pushed last). -/
theorem remove_ok_free (t : Tree T) (id : Nat) (h : (t.remove id).2 = .ok ()) :
    (t.remove id).1.free = some id := by
  unfold Tree.remove at h ⊢
  split at h
  · cases h
  · rfl

/-! ## C2, C3, C4: divergences of the code from the stated invariants -/

/-- C2 (code bug exhibit): the claim says that after every successful
public operation, including `remove` of the root, `root = None` iff
`count = 0`.  The code violates it: `Tree::remove` never clears
`self.root`, so removing the root of a one-node tree succeeds and leaves
`len = 0` with `root = some 0` still set. -/
theorem C2_remove_root_leaves_stale_root :
    ((Tree.new_with_root (5 : Nat)).remove 0).2 = .ok () ∧
    ((Tree.new_with_root (5 : Nat)).remove 0).1.len = 0 ∧
    ((Tree.new_with_root (5 : Nat)).remove 0).1.get_root = some 0 := by decide

/-- C3 (code bug exhibit): the claim says `make_root(id)` leaves `id` with
parent link `None`.  The code violates it: `decouple` does not clear
`parent` and `make_root` never resets it, so after promoting node 1 of the
two-generation example tree, `parent_of(1)` still reports the old root 0 —
a node that `make_root` itself freed (`valid_node 0` now fails). -/
theorem C3_make_root_keeps_stale_parent_link :
    (exTree.make_root 1).2 = .ok () ∧
    (exTree.make_root 1).1.get_root = some 1 ∧
    (exTree.make_root 1).1.parent_of 1 = .ok (some 0) ∧
    (exTree.make_root 1).1.valid_node 0 = .error .InvalidId := by decide

/-- C4 (code bug exhibit): the claim says every sibling-relative operation
whose reference node is the root fails with `CantBeRoot`.  Only `new_node`
checks this (`valid_sib`); `move_to` and `clone_to` validate the reference
with `valid_node` and accept the root: both return `Ok` on a sibling
position relative to root 0, and the moved node 1 ends up as a parentless
sibling of the root. -/
theorem C4_move_and_clone_accept_root_sibling :
    (exTree.move_to 1 .SiblingBefore 0).2 = .ok () ∧
    (exTree.move_to 1 .SiblingBefore 0).1.parent_of 1 = .ok none ∧
    (exTree.move_to 1 .SiblingBefore 0).1.get_root = some 0 ∧
    (exTree.clone_to 1 .SiblingAfter 0).2 = .ok 3 := by decide

/-! ## C9: empty-tree encoding -/

/-- C9: encoding an empty tree produces exactly one byte, the encoding of
the boolean `false`, and decoding that byte sequence yields an empty tree
with `root = none` and `count = 0` (boolean scalar codec modelled from the
spec). -/
theorem C9_empty_tree_encodes_as_single_false_byte :
    (Tree.new : Tree Bool).into_bytes boolIntoBytes = boolIntoBytes false ∧
    (boolIntoBytes false).length = 1 ∧
    boolFromBytes (boolIntoBytes false) = .ok (false, []) ∧
    Tree.from_bytes boolFromBytes ((Tree.new : Tree Bool).into_bytes boolIntoBytes) =
      .ok (Tree.new : Tree Bool) ∧
    (Tree.new : Tree Bool).get_root = none ∧ (Tree.new : Tree Bool).len = 0 := by decide

/-! ## C5: cycle rejection -/

/-- C5: for every tree and occupied nodes `id` and `d` with `d` equal to
`id` or a descendant of `id` (as listed by `descendants_of`), `move_to(id,
p, d)` fails with `CantMoveIntoChild` for every position `p` and leaves the
tree completely unchanged. -/
theorem C5_move_into_own_subtree_rejected (t : Tree T) (id d : Nat) (p : Position)
    (hid : t.valid_node id = .ok ())
    (hd : t.valid_node d = .ok ())
    (hmem : d = id ∨ d ∈ descAux t (defaultFuel t) id) :
    t.move_to id p d = (t, .error .CantMoveIntoChild) := by
  have hvm : t.valid_move id d = .error .CantMoveIntoChild := by
    unfold Tree.valid_move
    rw [hid, hd]
    have hm : d ∈ id :: descAux t (defaultFuel t) id := by
      rcases hmem with h | h
      · simp [h]
      · exact List.mem_cons_of_mem _ h
    simp [hm]
  unfold Tree.move_to
  rw [hvm]

/-- Witness for C5: moving root 0 of the example tree into its descendant 1
is rejected with `CantMoveIntoChild` and the tree is untouched. -/
theorem C5_witness : exTree.move_to 0 .LastChild 1 = (exTree, .error .CantMoveIntoChild) :=
  C5_move_into_own_subtree_rejected exTree 0 1 .LastChild (by decide) (by decide) (by decide)

/-! ## C10: free-list reuse after remove -/

/-- A successful `new_node` returns the id `get_node` allocated. -/
theorem new_node_ok_id (t : Tree T) (x : T) (pos : Position) (ref n : Nat)
    (h : (t.new_node x pos ref).2 = .ok n) : n = (t.get_node x).2 := by
  cases pos <;>
    (unfold Tree.new_node at h
     first
     | (rcases hv : t.valid_node ref with e | u
        · rw [hv] at h; simp at h
        · rw [hv] at h; simp at h; omega)
     | (rcases hv : t.valid_sib ref with e | u
        · rw [hv] at h; simp at h
        · rw [hv] at h; simp at h; omega))

/-- A successful `clone_to` passed a valid source returns the id of
`clone_node`, whose first allocation happens before any recursion. -/
theorem clone_to_ok_id (t : Tree T) (c : Nat) (pos : Position) (ref n : Nat)
    (h : (t.clone_to c pos ref).2 = .ok n) :
    t.valid_node c = .ok () ∧ n = (t.clone_node (cloneFuel t) c).2 := by
  unfold Tree.clone_to at h
  rcases hv : t.valid_node c with e | u
  · rw [hv] at h; simp at h
  · rw [hv] at h
    rcases hv2 : t.valid_node ref with e2 | u2
    · rw [hv2] at h; simp at h
    · rw [hv2] at h
      simp at h
      cases u
      exact ⟨rfl, h.symm⟩

/-- A `valid_node` success means the payload is present. -/
theorem valid_node_ok_data (t : Tree T) (i : Nat) (h : t.valid_node i = .ok ()) :
    ∃ d, (t.nodeAt i).data = some d :=
  Option.isSome_iff_exists.1 ((valid_node_ok_iff t i).1 h).2

/-- `clone_node` on an occupied source allocates its result id first. -/
theorem clone_node_id (t : Tree T) (fuel c : Nat) (d : T)
    (hd : (t.nodeAt c).data = some d) :
    (t.clone_node fuel c).2 = (t.get_node d).2 := by
  unfold Tree.clone_node
  rw [hd]

/-- C10 (amended): the free list is last-in-first-out and `remove` pushes
the removed subtree's root last, so immediately after a successful
`remove(id)` the next single allocation that pops this tree's free list —
the internal `get_node`, and hence `new_node` and `clone_to` — reuses
exactly the removed id.  (`new_root` removes the entire remaining tree
before allocating and therefore reuses the old root's id instead, and
decoding allocates inside a fresh tree.) -/
theorem C10_remove_then_allocate_reuses_id (t : Tree T) (id : Nat)
    (h : (t.remove id).2 = .ok ()) :
    (∀ x : T, ((t.remove id).1.get_node x).2 = id) ∧
    (∀ (x : T) (pos : Position) (ref n : Nat),
        ((t.remove id).1.new_node x pos ref).2 = .ok n → n = id) ∧
    (∀ (cloning : Nat) (pos : Position) (ref n : Nat),
        ((t.remove id).1.clone_to cloning pos ref).2 = .ok n → n = id) := by
  have hfree := remove_ok_free t id h
  refine ⟨fun x => get_node_free_some _ x id hfree, ?_, ?_⟩
  · intro x pos ref n hok
    rw [new_node_ok_id _ x pos ref n hok]
    exact get_node_free_some _ x id hfree
  · intro cloning pos ref n hok
    obtain ⟨hv, hn⟩ := clone_to_ok_id _ cloning pos ref n hok
    obtain ⟨d, hd⟩ := valid_node_ok_data _ cloning hv
    rw [hn, clone_node_id _ _ cloning d hd]
    exact get_node_free_some _ d id hfree

/-- Witness for C10 (amended) at a concrete input: after removing node 1 of
the example tree, allocating via `get_node` reuses id 1. -/
theorem C10_witness :
    (exTree.remove 1).2 = .ok () ∧ ((exTree.remove 1).1.get_node 7).2 = 1 :=
  ⟨by decide, (C10_remove_then_allocate_reuses_id exTree 1 (by decide)).1 7⟩

/-- C10 (counterexample): the claim also says the next allocation performed
by `new_root` reuses the removed id.  It does not: `new_root` first removes
the entire remaining tree, pushing those slots onto the free list above the
removed id, so its allocation pops the old root's id.  After `remove 1` on
the example tree, `new_root` allocates id 0, not 1. -/
theorem C10_counterexample_new_root :
    (exTree.remove 1).2 = .ok () ∧ ((exTree.remove 1).1.new_root 99).2 = 0 := by decide

/-! ## C8: depth-bounded traversals prune the unbounded one -/

/-- Every entry the info traversal emits below `id` at depth `cur` has
depth at least `cur`. -/
theorem depth_ge_of_mem_subTreeInfoAux (t : Tree T) :
    ∀ (fuel id cur : Nat) (n : NodeInfo), n ∈ subTreeInfoAux t fuel id cur → cur ≤ n.depth := by
  intro fuel
  induction fuel with
  | zero => intro id cur n hn; simp [subTreeInfoAux] at hn
  | succ fuel ih =>
      intro id cur n hn
      simp only [subTreeInfoAux, List.mem_cons, List.mem_flatMap] at hn
      rcases hn with rfl | ⟨c, _, hc⟩
      · simp
      · have := ih c (cur + 1) n hc
        omega

/-- The depth-bounded info traversal is the unbounded one with every entry
of depth greater than `target` filtered out. -/
theorem subTreeDepthInfoAux_eq_filter (t : Tree T) :
    ∀ (fuel id cur target : Nat), cur ≤ target →
      subTreeDepthInfoAux t fuel id cur target =
        (subTreeInfoAux t fuel id cur).filter (fun n => n.depth ≤ target) := by
  intro fuel
  induction fuel with
  | zero => intro id cur target _; simp [subTreeDepthInfoAux, subTreeInfoAux]
  | succ fuel ih =>
      intro id cur target hct
      simp only [subTreeDepthInfoAux, subTreeInfoAux, List.filter_cons]
      have hkeep : (decide (cur ≤ target)) = true := by simpa using hct
      rw [List.filter_flatMap]
      by_cases hlt : cur < target
      · have hco : ∀ c ∈ childIds t id,
            subTreeDepthInfoAux t fuel c (cur + 1) target =
              (subTreeInfoAux t fuel c (cur + 1)).filter (fun n => n.depth ≤ target) :=
          fun c _ => ih c (cur + 1) target (by omega)
        simp [if_pos hlt, hkeep, List.flatMap_congr hco]
      · have hnil : ((childIds t id).flatMap fun c =>
            (subTreeInfoAux t fuel c (cur + 1)).filter (fun n => n.depth ≤ target)) = [] := by
          refine List.flatMap_congr (g := fun _ => []) (fun c _ => ?_) |>.trans (by simp)
          rw [List.filter_eq_nil_iff]
          intro n hn
          have := depth_ge_of_mem_subTreeInfoAux t fuel c (cur + 1) n hn
          simp only [decide_eq_true_eq]
          omega
        simp [if_neg hlt, hkeep, hnil]

/-- The plain depth-bounded traversal lists exactly the ids of the
info-annotated one (target expressed relative to the start depth). -/
theorem subTreeDepthAux_eq_map_id (t : Tree T) :
    ∀ (fuel id cur target : Nat), cur ≤ target →
      (subTreeDepthInfoAux t fuel id cur target).map (fun n => n.id) =
        subTreeDepthAux t fuel id (target - cur) := by
  intro fuel
  induction fuel with
  | zero => intro id cur target _; simp [subTreeDepthInfoAux, subTreeDepthAux]
  | succ fuel ih =>
      intro id cur target hct
      simp only [subTreeDepthInfoAux, subTreeDepthAux, List.map_cons]
      by_cases hlt : cur < target
      · have h0 : 0 < target - cur := by omega
        simp only [if_pos hlt, if_pos h0, List.map_flatMap]
        congr 1
        apply List.flatMap_congr
        intro c _
        rw [ih c (cur + 1) target (by omega), Nat.sub_sub]
      · have h0 : ¬ 0 < target - cur := by omega
        simp [if_neg hlt, if_neg h0]

/-- C8: for every occupied node `id` and every `max_depth`, the
depth-bounded traversals return the unbounded preorder pruned at
`max_depth`: `sub_tree_depth_info` returns exactly the entries of
`sub_tree_info` whose relative depth is at most `max_depth`, in the same
order (so nodes at depth `max_depth` are listed, with their full child
counts, but nothing below them), `sub_tree_depth` returns exactly those
entries' ids, and `max_depth = 0` yields only `id` itself. -/
theorem C8_sub_tree_depth_prunes (t : Tree T) (id d : Nat)
    (hv : t.valid_node id = .ok ()) :
    t.sub_tree_info id = .ok (subTreeInfoAux t (defaultFuel t) id 0) ∧
    t.sub_tree_depth_info id d =
      .ok ((subTreeInfoAux t (defaultFuel t) id 0).filter (fun n => n.depth ≤ d)) ∧
    t.sub_tree_depth id d =
      .ok (((subTreeInfoAux t (defaultFuel t) id 0).filter (fun n => n.depth ≤ d)).map
        (fun n => n.id)) ∧
    t.sub_tree_depth id 0 = .ok [id] ∧
    t.sub_tree_depth_info id 0 = .ok [⟨id, (childIds t id).length, 0⟩] := by
  have hfil := subTreeDepthInfoAux_eq_filter t (defaultFuel t) id 0 d (Nat.zero_le d)
  have hmap := subTreeDepthAux_eq_map_id t (defaultFuel t) id 0 d (Nat.zero_le d)
  simp only [Nat.sub_zero] at hmap
  refine ⟨?_, ?_, ?_, ?_, ?_⟩
  · unfold Tree.sub_tree_info; rw [hv]; rfl
  · unfold Tree.sub_tree_depth_info; rw [hv]
    simp [Except.map, hfil]
  · unfold Tree.sub_tree_depth; rw [hv]
    simp [Except.map, ← hmap, hfil]
  · unfold Tree.sub_tree_depth; rw [hv]
    simp [Except.map, defaultFuel, subTreeDepthAux]
  · unfold Tree.sub_tree_depth_info; rw [hv]
    simp [Except.map, defaultFuel, subTreeDepthInfoAux]

/-- Witness for C8: the depth-1 info traversal of the five-node example
tree is the filtered unbounded traversal. -/
theorem C8_witness :
    exTree5.sub_tree_depth_info 0 1 =
      .ok ((subTreeInfoAux exTree5 (defaultFuel exTree5) 0 0).filter (fun n => n.depth ≤ 1)) :=
  (C8_sub_tree_depth_prunes exTree5 0 1 (by decide)).2.1

/-! ## Chain and traversal stability

The traversals read only the `first_child` and `next_sib` links of the
nodes they visit.  The lemmas here make that dependency explicit: a
mutation that leaves those links untouched on the visited set leaves the
traversal unchanged.  They drive the proofs about `remove` and the
insertion primitives. -/

/-- Single description of a slot write. -/
theorem nodeAt_setNode (t : Tree T) (i j : Nat) (n : Node T) :
    (t.setNode i n).nodeAt j = if i = j ∧ i < t.nodes.length then n else t.nodeAt j := by
  by_cases hij : i = j
  · subst hij
    by_cases hlt : i < t.nodes.length
    · rw [if_pos ⟨rfl, hlt⟩]
      exact nodeAt_setNode_self t i n hlt
    · rw [if_neg (fun hc => hlt hc.2)]
      simp [Tree.setNode, Tree.nodeAt, List.set_eq_of_length_le (by omega : t.nodes.length ≤ i)]
  · rw [if_neg (fun hc => hij hc.1)]
    exact nodeAt_setNode_ne t i j n hij

/-- A write that keeps a slot's `first_child` and `next_sib` leaves those
two links unchanged everywhere. -/
theorem setNode_preserves_links (t : Tree T) (i : Nat) (n : Node T) (j : Nat)
    (hfc : n.first_child = (t.nodeAt i).first_child)
    (hns : n.next_sib = (t.nodeAt i).next_sib) :
    ((t.setNode i n).nodeAt j).first_child = (t.nodeAt j).first_child ∧
    ((t.setNode i n).nodeAt j).next_sib = (t.nodeAt j).next_sib := by
  rw [nodeAt_setNode]
  split
  · rename_i h
    rw [← h.1]
    exact ⟨hfc, hns⟩
  · exact ⟨rfl, rfl⟩

/-- The second half of `decouple` writes only `prev_sib` and `last_child`
fields, so every node's `first_child` and `next_sib` links survive it. -/
theorem decoupleB_preserves_links (t1 : Tree T) (id j : Nat) :
    ((decoupleB t1 id).nodeAt j).first_child = (t1.nodeAt j).first_child ∧
    ((decoupleB t1 id).nodeAt j).next_sib = (t1.nodeAt j).next_sib := by
  unfold decoupleB
  rcases h2 : (t1.nodeAt id).next_sib with _ | next
  · rcases h3 : (t1.nodeAt id).parent with _ | par
    · exact ⟨rfl, rfl⟩
    · exact setNode_preserves_links t1 par _ j rfl rfl
  · exact setNode_preserves_links t1 next _ j rfl rfl

/-- The first half of `decouple` writes only to the previous sibling or the
parent of `id`: every other slot is untouched. -/
theorem decoupleA_preserves (t : Tree T) (id j : Nat)
    (hp : (t.nodeAt id).prev_sib ≠ some j)
    (hq : (t.nodeAt id).parent ≠ some j) :
    (decoupleA t id).nodeAt j = t.nodeAt j := by
  unfold decoupleA
  rcases h1 : (t.nodeAt id).prev_sib with _ | p
  · rcases h4 : (t.nodeAt id).parent with _ | q
    · rfl
    · exact nodeAt_setNode_ne t q j _ (fun h => hq (h ▸ h4))
  · exact nodeAt_setNode_ne t p j _ (fun h => hp (h ▸ h1))

/-- `decouple id` does not touch the `first_child`/`next_sib` links of any
node that is neither the previous sibling nor the parent of `id`. -/
theorem decouple_preserves_links (t : Tree T) (id j : Nat)
    (hp : (t.nodeAt id).prev_sib ≠ some j)
    (hq : (t.nodeAt id).parent ≠ some j) :
    ((t.decouple id).nodeAt j).first_child = (t.nodeAt j).first_child ∧
    ((t.decouple id).nodeAt j).next_sib = (t.nodeAt j).next_sib := by
  have hA := decoupleA_preserves t id j hp hq
  have hB := decoupleB_preserves_links (decoupleA t id) id j
  exact ⟨hB.1.trans (by rw [hA]), hB.2.trans (by rw [hA])⟩

/-- A terminating sibling walk is reproduced by any tree that agrees on the
`next_sib` links of its members. -/
theorem chainN_stable (t t' : Tree T) :
    ∀ (fuel : Nat) (start : Option Nat) (l : List Nat),
      chainN t fuel start = some l →
      (∀ c ∈ l, (t'.nodeAt c).next_sib = (t.nodeAt c).next_sib) →
      chainN t' fuel start = some l := by
  intro fuel
  induction fuel with
  | zero =>
      intro start l h hagree
      cases start with
      | none => simpa [chainN] using h
      | some c => simp [chainN] at h
  | succ fuel ih =>
      intro start l h hagree
      cases start with
      | none => simpa [chainN] using h
      | some c =>
          simp only [chainN, Option.map_eq_some'] at h
          obtain ⟨l', hl', rfl⟩ := h
          have hc : c ∈ c :: l' := List.mem_cons_self c l'
          simp only [chainN, hagree c hc]
          rw [ih _ l' hl' fun d hd => hagree d (List.mem_cons_of_mem c hd)]
          rfl

/-- A successful sibling walk is reproduced with any larger fuel. -/
theorem chainN_mono (t : Tree T) :
    ∀ (F F' : Nat) (s : Option Nat) (l : List Nat),
      chainN t F s = some l → F ≤ F' → chainN t F' s = some l := by
  intro F
  induction F with
  | zero =>
      intro F' s l h _
      cases s with
      | none => simp [chainN] at h ⊢; cases F' <;> simpa [chainN] using h
      | some c => simp [chainN] at h
  | succ F ih =>
      intro F' s l h hle
      cases s with
      | none => cases F' <;> simpa [chainN] using h
      | some c =>
          cases F' with
          | zero => omega
          | succ F2 =>
              simp only [chainN, Option.map_eq_some'] at h ⊢
              obtain ⟨l', hl', rfl⟩ := h
              exact ⟨l', ih F2 _ l' hl' (by omega), rfl⟩

/-- The child list of `id` is reproduced by any tree of the same arena size
that agrees on `id`'s `first_child` and the children's `next_sib` links,
provided the walk terminates. -/
theorem childIds_stable (t t' : Tree T) (id : Nat)
    (hlen : t.nodes.length ≤ t'.nodes.length)
    (hfc : (t'.nodeAt id).first_child = (t.nodeAt id).first_child)
    (hsome : (chainN t (sibFuel t) (t.nodeAt id).first_child).isSome = true)
    (hagree : ∀ c ∈ childIds t id, (t'.nodeAt c).next_sib = (t.nodeAt c).next_sib) :
    childIds t' id = childIds t id := by
  obtain ⟨l, hl⟩ := Option.isSome_iff_exists.1 hsome
  have hcid : childIds t id = l := by unfold childIds; rw [hl]; rfl
  have hsf : sibFuel t ≤ sibFuel t' := by unfold sibFuel; omega
  have h2 : chainN t' (sibFuel t) (t.nodeAt id).first_child = some l :=
    chainN_stable t t' _ _ l hl (hcid ▸ hagree)
  have h3 : chainN t' (sibFuel t') (t.nodeAt id).first_child = some l :=
    chainN_mono t' _ _ _ l h2 hsf
  unfold childIds
  rw [hfc, h3, hl]

/-- The preorder descendant traversal reads only the `first_child` and
`next_sib` links of the visited nodes: any tree of the same arena size
agreeing on those links over `sub_tree(id)` produces the same descendant
list (and child list). -/
theorem descAux_stable (t t' : Tree T) :
    ∀ (fuel id : Nat),
      t'.nodes.length = t.nodes.length →
      travOk t fuel id = true →
      (∀ j ∈ id :: descAux t fuel id,
          (t'.nodeAt j).first_child = (t.nodeAt j).first_child ∧
          (t'.nodeAt j).next_sib = (t.nodeAt j).next_sib) →
      descAux t' fuel id = descAux t fuel id ∧ childIds t' id = childIds t id := by
  intro fuel
  induction fuel with
  | zero => intro id _ htrav _; simp [travOk] at htrav
  | succ fuel ih =>
      intro id hlen htrav hagree
      simp only [travOk, Bool.and_eq_true, List.all_eq_true] at htrav
      obtain ⟨hchain, hkids⟩ := htrav
      have hmem_child : ∀ c ∈ childIds t id, c ∈ descAux t (fuel + 1) id := by
        intro c hc
        simp only [descAux, List.mem_flatMap]
        exact ⟨c, hc, List.mem_cons_self _ _⟩
      have hmem_blk : ∀ c ∈ childIds t id, ∀ j ∈ c :: descAux t fuel c,
          j ∈ descAux t (fuel + 1) id := by
        intro c hc j hj
        simp only [descAux, List.mem_flatMap]
        exact ⟨c, hc, hj⟩
      have hcid : childIds t' id = childIds t id := by
        refine childIds_stable t t' id (le_of_eq hlen.symm) (hagree id (List.mem_cons_self _ _)).1
          hchain ?_
        intro c hc
        exact (hagree c (List.mem_cons_of_mem _ (hmem_child c hc))).2
      constructor
      · show descAux t' (fuel + 1) id = descAux t (fuel + 1) id
        simp only [descAux]
        rw [hcid]
        refine List.flatMap_congr fun c hc => ?_
        have hsub := ih c hlen (hkids c hc) fun j hj =>
          hagree j (List.mem_cons_of_mem _ (hmem_blk c hc j hj))
        rw [hsub.1]
      · exact hcid

/-! ## `push_free` bookkeeping -/

theorem push_free_len (t : Tree T) (j : Nat) : (t.push_free j).len = t.len - 1 := rfl

theorem push_free_length (t : Tree T) (j : Nat) :
    (t.push_free j).nodes.length = t.nodes.length := by
  simp [Tree.push_free, Tree.setNode]

theorem push_free_nodeAt_ne (t : Tree T) (freed i : Nat) (h : freed ≠ i) :
    (t.push_free freed).nodeAt i = t.nodeAt i := by
  show (t.setNode freed _).nodeAt i = t.nodeAt i
  exact nodeAt_setNode_ne t freed i _ h

theorem push_free_data_none (t : Tree T) (j : Nat) (h : j < t.nodes.length) :
    ((t.push_free j).nodeAt j).data = none := by
  show ((t.setNode j _).nodeAt j).data = none
  rw [nodeAt_setNode_self t j _ h]

theorem foldl_push_free_len (l : List Nat) :
    ∀ t : Tree T, (l.foldl Tree.push_free t).len = t.len - l.length := by
  induction l with
  | nil => intro t; simp
  | cons a l ih =>
      intro t
      rw [List.foldl_cons, ih, push_free_len, List.length_cons]
      omega

theorem foldl_push_free_length (l : List Nat) :
    ∀ t : Tree T, (l.foldl Tree.push_free t).nodes.length = t.nodes.length := by
  induction l with
  | nil => intro t; rfl
  | cons a l ih => intro t; rw [List.foldl_cons, ih, push_free_length]

theorem foldl_push_free_nodeAt_notmem (l : List Nat) :
    ∀ (t : Tree T) (j : Nat), j ∉ l → (l.foldl Tree.push_free t).nodeAt j = t.nodeAt j := by
  induction l with
  | nil => intro t j _; rfl
  | cons a l ih =>
      intro t j hj
      rw [List.foldl_cons, ih _ j (fun h => hj (List.mem_cons_of_mem a h)),
        push_free_nodeAt_ne t a j (fun h => hj (h ▸ List.mem_cons_self a l))]

theorem foldl_push_free_data_none (l : List Nat) :
    ∀ t : Tree T, (∀ j ∈ l, j < t.nodes.length) →
      ∀ j ∈ l, ((l.foldl Tree.push_free t).nodeAt j).data = none := by
  induction l with
  | nil => intro t _ j hj; cases hj
  | cons a l ih =>
      intro t hrange j hj
      rw [List.foldl_cons]
      rcases List.mem_cons.1 hj with rfl | hj'
      · by_cases hmem : j ∈ l
        · exact ih (t.push_free j)
            (fun k hk => by rw [push_free_length]; exact hrange k (List.mem_cons_of_mem j hk))
            j hmem
        · rw [foldl_push_free_nodeAt_notmem l (t.push_free j) j hmem]
          exact push_free_data_none t j (hrange j hj)
      · exact ih (t.push_free a)
          (fun k hk => by rw [push_free_length]; exact hrange k (List.mem_cons_of_mem a hk))
          j hj'

theorem decoupleA_length (t : Tree T) (id : Nat) :
    (decoupleA t id).nodes.length = t.nodes.length := by
  unfold decoupleA
  repeat' split
  all_goals simp [Tree.setNode]

theorem decoupleB_length (t : Tree T) (id : Nat) :
    (decoupleB t id).nodes.length = t.nodes.length := by
  unfold decoupleB
  repeat' split
  all_goals simp [Tree.setNode]

theorem decouple_length (t : Tree T) (id : Nat) :
    (t.decouple id).nodes.length = t.nodes.length := by
  unfold Tree.decouple
  rw [decoupleB_length, decoupleA_length]

theorem decoupleA_len (t : Tree T) (id : Nat) : (decoupleA t id).len = t.len := by
  unfold decoupleA
  repeat' split
  all_goals simp [Tree.setNode]

theorem decoupleB_len (t : Tree T) (id : Nat) : (decoupleB t id).len = t.len := by
  unfold decoupleB
  repeat' split
  all_goals simp [Tree.setNode]

theorem decouple_len (t : Tree T) (id : Nat) : (t.decouple id).len = t.len := by
  unfold Tree.decouple
  rw [decoupleB_len, decoupleA_len]

/-! ## C6: cascading removal -/

/-- C6: for an occupied node `id` of a tree with the facts every valid tree
provides (terminating traversal below `id`, in-range visited ids, a node
count at least the visited count, and the previous sibling and parent of
`id` lying outside `id`'s own subtree), a successful `remove(id)` decreases
`len` by exactly `1 + |descendants_of(id)|`, and afterward `id` and every
former descendant are invalid: `valid_node` — the first check of every
id-taking operation — and, for instance, `data_at` fail with `InvalidId`
(until the slot is reallocated). -/
theorem C6_remove_cascades (t : Tree T) (id : Nat)
    (hv : t.valid_node id = .ok ())
    (htrav : travOk t (defaultFuel t) id = true)
    (hocc : ∀ j ∈ id :: descAux t (defaultFuel t) id, j < t.nodes.length)
    (hcnt : (id :: descAux t (defaultFuel t) id).length ≤ t.len)
    (hprev : ∀ p, (t.nodeAt id).prev_sib = some p → p ∉ id :: descAux t (defaultFuel t) id)
    (hpar : ∀ p, (t.nodeAt id).parent = some p → p ∉ id :: descAux t (defaultFuel t) id) :
    (t.remove id).2 = .ok () ∧
    t.descendants_of id = .ok (descAux t (defaultFuel t) id) ∧
    (t.remove id).1.len + (1 + (descAux t (defaultFuel t) id).length) = t.len ∧
    ∀ j ∈ id :: descAux t (defaultFuel t) id,
      (t.remove id).1.valid_node j = .error .InvalidId ∧
      (t.remove id).1.data_at j = .error .InvalidId := by
  have hrm : t.remove id =
      (((descAux (t.decouple id) (defaultFuel (t.decouple id)) id).foldl Tree.push_free
        (t.decouple id)).push_free id, .ok ()) := by
    unfold Tree.remove
    rw [hv]
  have hlen1 : (t.decouple id).nodes.length = t.nodes.length := decouple_length t id
  have hfuel1 : defaultFuel (t.decouple id) = defaultFuel t := by unfold defaultFuel; rw [hlen1]
  have hagree : ∀ j ∈ id :: descAux t (defaultFuel t) id,
      ((t.decouple id).nodeAt j).first_child = (t.nodeAt j).first_child ∧
      ((t.decouple id).nodeAt j).next_sib = (t.nodeAt j).next_sib := fun j hj =>
    decouple_preserves_links t id j (fun he => hprev j he hj) (fun he => hpar j he hj)
  have hdesc : descAux (t.decouple id) (defaultFuel t) id = descAux t (defaultFuel t) id :=
    (descAux_stable t (t.decouple id) (defaultFuel t) id hlen1 htrav hagree).1
  have hrm1 : (t.remove id).1 =
      ((descAux t (defaultFuel t) id).foldl Tree.push_free (t.decouple id)).push_free id := by
    rw [hrm, hfuel1, hdesc]
  have hElen : (t.remove id).1.nodes.length = t.nodes.length := by
    rw [hrm1, push_free_length, foldl_push_free_length, hlen1]
  have hdata : ∀ j ∈ id :: descAux t (defaultFuel t) id,
      (((t.remove id).1).nodeAt j).data = none := by
    intro j hj
    rw [hrm1]
    by_cases hid : id = j
    · subst hid
      exact push_free_data_none _ id
        (by rw [foldl_push_free_length, hlen1]; exact hocc id (List.mem_cons_self _ _))
    · rcases List.mem_cons.1 hj with rfl | hjD
      · exact absurd rfl hid
      · rw [push_free_nodeAt_ne _ id j hid]
        exact foldl_push_free_data_none _ _
          (fun k hk => by rw [hlen1]; exact hocc k (List.mem_cons_of_mem id hk)) j hjD
  refine ⟨by rw [hrm], ?_, ?_, ?_⟩
  · unfold Tree.descendants_of
    rw [hv]
    rfl
  · rw [hrm1, push_free_len, foldl_push_free_len, decouple_len]
    simp only [List.length_cons] at hcnt
    omega
  · intro j hj
    have hjlt : j < (t.remove id).1.nodes.length := by rw [hElen]; exact hocc j hj
    have hvn : (t.remove id).1.valid_node j = .error .InvalidId := by
      unfold Tree.valid_node
      rw [if_neg (by omega), hdata j hj]
      simp
    refine ⟨hvn, ?_⟩
    unfold Tree.data_at
    rw [hvn]

/-- Witness for C6: removing node 2 (child 3 below it) of the five-node
example tree drops `len` by exactly 2. -/
theorem C6_witness :
    (exTree5.remove 2).1.len + (1 + (descAux exTree5 (defaultFuel exTree5) 2).length) =
      exTree5.len :=
  (C6_remove_cascades exTree5 2 (by decide) (by decide) (by decide) (by decide)
    (by intro p hp; rw [show (exTree5.nodeAt 2).prev_sib = some 1 from by decide] at hp
        cases hp; decide)
    (by intro p hp; rw [show (exTree5.nodeAt 2).parent = some 0 from by decide] at hp
        cases hp; decide)).2.2.1

/-! ## Slot-level effect of the four attach primitives -/

/-- Effect of `append_child` on the arena, slot by slot. -/
theorem append_child_spec (t : Tree T) (parent new : Nat)
    (hN : parent < t.nodes.length) (hnew : new < t.nodes.length) (hne : parent ≠ new)
    (hlcN : (t.nodeAt parent).last_child ≠ some parent)
    (hlcnew : (t.nodeAt parent).last_child ≠ some new)
    (hlcrange : ∀ q, (t.nodeAt parent).last_child = some q → q < t.nodes.length) :
    (t.append_child parent new).nodeAt new =
      { t.nodeAt new with
        prev_sib := (t.nodeAt parent).last_child
        parent := some parent } ∧
    (t.append_child parent new).nodeAt parent =
      { t.nodeAt parent with
        last_child := some new
        first_child := (if (t.nodeAt parent).first_child.isNone then some new
          else (t.nodeAt parent).first_child) } ∧
    (∀ q, (t.nodeAt parent).last_child = some q →
      (t.append_child parent new).nodeAt q = { t.nodeAt q with next_sib := some new }) ∧
    (∀ j, j ≠ new → j ≠ parent → (t.nodeAt parent).last_child ≠ some j →
      (t.append_child parent new).nodeAt j = t.nodeAt j) ∧
    (t.append_child parent new).nodes.length = t.nodes.length ∧
    (t.append_child parent new).free = t.free ∧
    (t.append_child parent new).root = t.root ∧
    (t.append_child parent new).len = t.len := by
  unfold Tree.append_child
  rcases hlc : (t.nodeAt parent).last_child with _ | q
  · by_cases hfc : (t.nodeAt parent).first_child = none <;>
      (simp [nodeAt_setNode, setNode_length, setNode_free, setNode_root, setNode_len,
         hnew, hN, hne, Ne.symm hne, hfc]
       intro j hj1 hj2
       simp [show parent ≠ j from fun h => hj2 h.symm, show new ≠ j from fun h => hj1 h.symm])
  · rw [hlc] at hlcN hlcnew
    have hq : q < t.nodes.length := hlcrange q hlc
    have hqN : q ≠ parent := by simpa using hlcN
    have hqnew : q ≠ new := by simpa using hlcnew
    by_cases hfc : (t.nodeAt parent).first_child = none <;>
      (simp [nodeAt_setNode, setNode_length, setNode_free, setNode_root, setNode_len,
         hnew, hN, hq, hne, Ne.symm hne, hqN, Ne.symm hqN, hqnew, Ne.symm hqnew, hfc]
       intro j hj1 hj2 hj3
       simp [show parent ≠ j from fun h => hj2 h.symm, show new ≠ j from fun h => hj1 h.symm,
         hj3])

/-- Effect of `prepend_child` on the arena, slot by slot. -/
theorem prepend_child_spec (t : Tree T) (parent new : Nat)
    (hN : parent < t.nodes.length) (hnew : new < t.nodes.length) (hne : parent ≠ new)
    (hfcN : (t.nodeAt parent).first_child ≠ some parent)
    (hfcnew : (t.nodeAt parent).first_child ≠ some new)
    (hfcrange : ∀ q, (t.nodeAt parent).first_child = some q → q < t.nodes.length) :
    (t.prepend_child parent new).nodeAt new =
      { t.nodeAt new with
        next_sib := (t.nodeAt parent).first_child
        parent := some parent } ∧
    (t.prepend_child parent new).nodeAt parent =
      { t.nodeAt parent with
        first_child := some new
        last_child := (if (t.nodeAt parent).last_child.isNone then some new
          else (t.nodeAt parent).last_child) } ∧
    (∀ q, (t.nodeAt parent).first_child = some q →
      (t.prepend_child parent new).nodeAt q = { t.nodeAt q with prev_sib := some new }) ∧
    (∀ j, j ≠ new → j ≠ parent → (t.nodeAt parent).first_child ≠ some j →
      (t.prepend_child parent new).nodeAt j = t.nodeAt j) ∧
    (t.prepend_child parent new).nodes.length = t.nodes.length ∧
    (t.prepend_child parent new).free = t.free ∧
    (t.prepend_child parent new).root = t.root ∧
    (t.prepend_child parent new).len = t.len := by
  unfold Tree.prepend_child
  rcases hfcq : (t.nodeAt parent).first_child with _ | q
  · by_cases hlcn : (t.nodeAt parent).last_child = none <;>
      (simp [nodeAt_setNode, setNode_length, setNode_free, setNode_root, setNode_len,
         hnew, hN, hne, Ne.symm hne, hlcn]
       intro j hj1 hj2
       simp [show parent ≠ j from fun h => hj2 h.symm, show new ≠ j from fun h => hj1 h.symm])
  · rw [hfcq] at hfcN hfcnew
    have hq : q < t.nodes.length := hfcrange q hfcq
    have hqN : q ≠ parent := by simpa using hfcN
    have hqnew : q ≠ new := by simpa using hfcnew
    by_cases hlcn : (t.nodeAt parent).last_child = none <;>
      (simp [nodeAt_setNode, setNode_length, setNode_free, setNode_root, setNode_len,
         hnew, hN, hq, hne, Ne.symm hne, hqN, Ne.symm hqN, hqnew, Ne.symm hqnew, hlcn]
       intro j hj1 hj2 hj3
       simp [show parent ≠ j from fun h => hj2 h.symm, show new ≠ j from fun h => hj1 h.symm,
         hj3])

/-- Effect of `add_sibling_before` on the arena, slot by slot. -/
theorem add_sibling_before_spec (t : Tree T) (S new : Nat)
    (hS : S < t.nodes.length) (hnew : new < t.nodes.length) (hne : S ≠ new)
    (hpS : (t.nodeAt S).prev_sib ≠ some S) (hpnew : (t.nodeAt S).prev_sib ≠ some new)
    (hprange : ∀ p, (t.nodeAt S).prev_sib = some p → p < t.nodes.length)
    (hparS : (t.nodeAt S).parent ≠ some S) (hparnew : (t.nodeAt S).parent ≠ some new)
    (hparrange : ∀ p, (t.nodeAt S).parent = some p → p < t.nodes.length) :
    (t.add_sibling_before S new).nodeAt new =
      { t.nodeAt new with
        next_sib := some S
        prev_sib := (t.nodeAt S).prev_sib
        parent := (t.nodeAt S).parent } ∧
    (t.add_sibling_before S new).nodeAt S = { t.nodeAt S with prev_sib := some new } ∧
    (∀ p, (t.nodeAt S).prev_sib = some p →
      (t.add_sibling_before S new).nodeAt p = { t.nodeAt p with next_sib := some new }) ∧
    ((t.nodeAt S).prev_sib = none → ∀ par, (t.nodeAt S).parent = some par →
      (t.add_sibling_before S new).nodeAt par = { t.nodeAt par with first_child := some new }) ∧
    (∀ j, j ≠ new → j ≠ S → (t.nodeAt S).prev_sib ≠ some j → (t.nodeAt S).parent ≠ some j →
      (t.add_sibling_before S new).nodeAt j = t.nodeAt j) ∧
    (t.add_sibling_before S new).nodes.length = t.nodes.length ∧
    (t.add_sibling_before S new).free = t.free ∧
    (t.add_sibling_before S new).root = t.root ∧
    (t.add_sibling_before S new).len = t.len := by
  unfold Tree.add_sibling_before
  rcases hprev : (t.nodeAt S).prev_sib with _ | p
  · rcases hpar : (t.nodeAt S).parent with _ | par
    · simp [nodeAt_setNode, setNode_length, setNode_free, setNode_root, setNode_len,
        hnew, hS, hne, Ne.symm hne]
      intro j hj1 hj2
      simp [show S ≠ j from fun h => hj2 h.symm, show new ≠ j from fun h => hj1 h.symm]
    · rw [hpar] at hparS hparnew
      have hq : par < t.nodes.length := hparrange par hpar
      have hqS : par ≠ S := by simpa using hparS
      have hqnew : par ≠ new := by simpa using hparnew
      simp [nodeAt_setNode, setNode_length, setNode_free, setNode_root, setNode_len,
        hnew, hS, hq, hne, Ne.symm hne, hqS, Ne.symm hqS, hqnew, Ne.symm hqnew]
      intro j hj1 hj2 hj3
      simp [show S ≠ j from fun h => hj2 h.symm, show new ≠ j from fun h => hj1 h.symm,
        hj3]
  · rw [hprev] at hpS hpnew
    have hq : p < t.nodes.length := hprange p hprev
    have hqS : p ≠ S := by simpa using hpS
    have hqnew : p ≠ new := by simpa using hpnew
    simp [nodeAt_setNode, setNode_length, setNode_free, setNode_root, setNode_len,
      hnew, hS, hq, hne, Ne.symm hne, hqS, Ne.symm hqS, hqnew, Ne.symm hqnew]
    intro j hj1 hj2 hj3
    simp [show S ≠ j from fun h => hj2 h.symm, show new ≠ j from fun h => hj1 h.symm, hj3]

/-- Effect of `add_sibling_after` on the arena, slot by slot. -/
theorem add_sibling_after_spec (t : Tree T) (S new : Nat)
    (hS : S < t.nodes.length) (hnew : new < t.nodes.length) (hne : S ≠ new)
    (hpS : (t.nodeAt S).next_sib ≠ some S) (hpnew : (t.nodeAt S).next_sib ≠ some new)
    (hprange : ∀ p, (t.nodeAt S).next_sib = some p → p < t.nodes.length)
    (hparS : (t.nodeAt S).parent ≠ some S) (hparnew : (t.nodeAt S).parent ≠ some new)
    (hparrange : ∀ p, (t.nodeAt S).parent = some p → p < t.nodes.length) :
    (t.add_sibling_after S new).nodeAt new =
      { t.nodeAt new with
        prev_sib := some S
        next_sib := (t.nodeAt S).next_sib
        parent := (t.nodeAt S).parent } ∧
    (t.add_sibling_after S new).nodeAt S = { t.nodeAt S with next_sib := some new } ∧
    (∀ p, (t.nodeAt S).next_sib = some p →
      (t.add_sibling_after S new).nodeAt p = { t.nodeAt p with prev_sib := some new }) ∧
    ((t.nodeAt S).next_sib = none → ∀ par, (t.nodeAt S).parent = some par →
      (t.add_sibling_after S new).nodeAt par = { t.nodeAt par with last_child := some new }) ∧
    (∀ j, j ≠ new → j ≠ S → (t.nodeAt S).next_sib ≠ some j → (t.nodeAt S).parent ≠ some j →
      (t.add_sibling_after S new).nodeAt j = t.nodeAt j) ∧
    (t.add_sibling_after S new).nodes.length = t.nodes.length ∧
    (t.add_sibling_after S new).free = t.free ∧
    (t.add_sibling_after S new).root = t.root ∧
    (t.add_sibling_after S new).len = t.len := by
  unfold Tree.add_sibling_after
  rcases hnx : (t.nodeAt S).next_sib with _ | p
  · rcases hpar : (t.nodeAt S).parent with _ | par
    · simp [nodeAt_setNode, setNode_length, setNode_free, setNode_root, setNode_len,
        hnew, hS, hne, Ne.symm hne]
      intro j hj1 hj2
      simp [show S ≠ j from fun h => hj2 h.symm, show new ≠ j from fun h => hj1 h.symm]
    · rw [hpar] at hparS hparnew
      have hq : par < t.nodes.length := hparrange par hpar
      have hqS : par ≠ S := by simpa using hparS
      have hqnew : par ≠ new := by simpa using hparnew
      simp [nodeAt_setNode, setNode_length, setNode_free, setNode_root, setNode_len,
        hnew, hS, hq, hne, Ne.symm hne, hqS, Ne.symm hqS, hqnew, Ne.symm hqnew]
      intro j hj1 hj2 hj3
      simp [show S ≠ j from fun h => hj2 h.symm, show new ≠ j from fun h => hj1 h.symm,
        hj3]
  · rw [hnx] at hpS hpnew
    have hq : p < t.nodes.length := hprange p hnx
    have hqS : p ≠ S := by simpa using hpS
    have hqnew : p ≠ new := by simpa using hpnew
    simp [nodeAt_setNode, setNode_length, setNode_free, setNode_root, setNode_len,
      hnew, hS, hq, hne, Ne.symm hne, hqS, Ne.symm hqS, hqnew, Ne.symm hqnew]
    intro j hj1 hj2 hj3
    simp [show S ≠ j from fun h => hj2 h.symm, show new ≠ j from fun h => hj1 h.symm, hj3]

/-- Effect of `get_node`: pop the free-list head (clearing its `next_sib`)
or grow the arena with a fresh unlinked node; `len` increments and every
other slot is untouched. -/
theorem get_node_spec (t : Tree T) (x : T)
    (hfree : ∀ f, t.free = some f → f < t.nodes.length) :
    (t.get_node x).1.nodeAt (t.get_node x).2 =
      { t.nodeAt (t.get_node x).2 with
        next_sib := none
        data := some x } ∧
    (∀ j, j ≠ (t.get_node x).2 → (t.get_node x).1.nodeAt j = t.nodeAt j) ∧
    (t.get_node x).1.len = t.len + 1 ∧
    (t.get_node x).2 < (t.get_node x).1.nodes.length ∧
    t.nodes.length ≤ (t.get_node x).1.nodes.length ∧
    (t.get_node x).1.nodes.length ≤ t.nodes.length + 1 ∧
    (t.get_node x).1.root = t.root ∧
    (t.free = none → (t.get_node x).2 = t.nodes.length) ∧
    (∀ f, t.free = some f → (t.get_node x).2 = f) := by
  unfold Tree.get_node Tree.pop_free
  rcases hf : t.free with _ | f
  · dsimp only
    refine ⟨?_, ?_, rfl, ?_, ?_, ?_, rfl, fun _ => rfl, fun f h => absurd h (by simp [hf])⟩
    · show (t.nodes ++ [Node.new x]).getD t.nodes.length default = _
      have hrhs : t.nodeAt t.nodes.length = default := by
        simp [Tree.nodeAt, List.getD_eq_getElem?_getD, List.getElem?_eq_none (le_refl _)]
      rw [List.getD_eq_getElem?_getD, List.getElem?_concat_length, hrhs]
      rfl
    · intro j hj
      show (t.nodes ++ [Node.new x]).getD j default = t.nodes.getD j default
      by_cases hjl : j < t.nodes.length
      · simp [List.getD_eq_getElem?_getD, List.getElem?_append_left hjl]
      · have h1 : t.nodes.length + 1 ≤ j := by
          rcases Nat.lt_or_ge j (t.nodes.length + 1) with hlt | hge
          · exact absurd (by omega : j = t.nodes.length) hj
          · exact hge
        simp [List.getD_eq_getElem?_getD,
          List.getElem?_eq_none (show t.nodes.length ≤ j by omega),
          List.getElem?_eq_none (show (t.nodes ++ [Node.new x]).length ≤ j by simp; omega)]
    · simp
    · simp
    · simp
  · have hfl := hfree f hf
    dsimp only
    refine ⟨?_, ?_, rfl, ?_, ?_, ?_, rfl, ?_, ?_⟩
    · simp [Tree.setNode, Tree.nodeAt, List.getD_eq_getElem?_getD, List.getElem?_set, hfl]
    · intro j hj
      simp [Tree.setNode, Tree.nodeAt, List.getD_eq_getElem?_getD, List.getElem?_set,
        Ne.symm hj]
    · simp [setNode_length, hfl]
    · simp [setNode_length]
    · simp [setNode_length]
    · exact fun h => absurd h (by simp)
    · exact fun f' h => by cases h; rfl

/-- A successful sibling walk has at most `fuel` elements. -/
theorem chainN_length_le (t : Tree T) :
    ∀ (F : Nat) (s : Option Nat) (l : List Nat), chainN t F s = some l → l.length ≤ F := by
  intro F
  induction F with
  | zero =>
      intro s l h
      cases s with
      | none => simp [chainN] at h; subst h; simp
      | some c => simp [chainN] at h
  | succ F ih =>
      intro s l h
      cases s with
      | none => simp [chainN] at h; subst h; simp
      | some c =>
          simp only [chainN, Option.map_eq_some'] at h
          obtain ⟨l', hl', rfl⟩ := h
          simpa using Nat.succ_le_succ (ih _ l' hl')


theorem chainN_snoc (t t' : Tree T) (new q : Nat)
    (hqnew : (t'.nodeAt q).next_sib = some new)
    (hnewnil : (t'.nodeAt new).next_sib = none) :
    ∀ (l : List Nat) (F F' : Nat) (s : Option Nat),
      chainN t F s = some (l ++ [q]) →
      (∀ c ∈ l, (t'.nodeAt c).next_sib = (t.nodeAt c).next_sib) →
      l.length + 2 ≤ F' →
      chainN t' F' s = some (l ++ [q] ++ [new]) := by
  intro l
  induction l with
  | nil =>
      intro F F' s h hagree hF
      cases s with
      | none => cases F <;> simp [chainN] at h
      | some c =>
          cases F with
          | zero => simp [chainN] at h
          | succ F0 =>
              simp only [chainN, Option.map_eq_some', List.nil_append] at h
              obtain ⟨l', hl', he⟩ := h
              have hce : c = q := by
                have := List.cons.inj he
                exact this.1
              subst hce
              obtain ⟨F2, rfl⟩ : ∃ F2, F' = F2 + 2 := ⟨F' - 2, by omega⟩
              simp [chainN, hqnew, hnewnil]
  | cons a l ih =>
      intro F F' s h hagree hF
      cases s with
      | none => cases F <;> simp [chainN] at h
      | some c =>
          cases F with
          | zero => simp [chainN] at h
          | succ F0 =>
              simp only [chainN, Option.map_eq_some', List.cons_append] at h
              obtain ⟨l', hl', he⟩ := h
              have hca : c = a := (List.cons.inj he).1
              subst hca
              have hl'e : l' = l ++ [q] := (List.cons.inj he).2
              subst hl'e
              obtain ⟨F2, rfl⟩ : ∃ F2, F' = F2 + 1 := ⟨F' - 1, by omega⟩
              simp only [chainN, hagree c (List.mem_cons_self c l)]
              rw [ih F0 F2 _ hl' (fun d hd => hagree d (List.mem_cons_of_mem c hd))
                (by simp at hF ⊢; omega)]
              simp
/-- A walk that yields the empty chain started at `none`. -/
theorem chainN_nil_start (t : Tree T) (F : Nat) (s : Option Nat)
    (h : chainN t F s = some []) : s = none := by
  cases s with
  | none => rfl
  | some c =>
      cases F with
      | zero => simp [chainN] at h
      | succ F0 => simp [chainN] at h

/-- A node with no next sibling forms a one-element chain. -/
theorem chainN_singleton (t : Tree T) (c F : Nat)
    (h : (t.nodeAt c).next_sib = none) : chainN t (F + 1) (some c) = some [c] := by
  simp [chainN, h]

/-- A successful walk is reproduced by any fuel at least its length. -/
theorem chainN_refuel (t : Tree T) :
    ∀ (l : List Nat) (F F' : Nat) (s : Option Nat),
      chainN t F s = some l → l.length ≤ F' → chainN t F' s = some l := by
  intro l
  induction l with
  | nil =>
      intro F F' s h _
      rw [chainN_nil_start t F s h]
      cases F' <;> simp [chainN]
  | cons a l ih =>
      intro F F' s h hF
      cases s with
      | none => cases F <;> simp [chainN] at h
      | some c =>
          cases F with
          | zero => simp [chainN] at h
          | succ F0 =>
              simp only [chainN, Option.map_eq_some'] at h
              obtain ⟨l', hl', he⟩ := h
              have hca : c = a := (List.cons.inj he).1
              subst hca
              have hl'e : l' = l := (List.cons.inj he).2
              subst hl'e
              obtain ⟨F2, rfl⟩ : ∃ F2, F' = F2 + 1 := ⟨F' - 1, by simp at hF; omega⟩
              simp only [chainN]
              rw [ih F0 F2 _ hl' (by simp at hF; omega)]
              rfl

/-- Distinct naturals all below `n` number at most `n`. -/
theorem nodup_lt_length_le (l : List Nat) (n : Nat) (hn : l.Nodup)
    (hr : ∀ c ∈ l, c < n) : l.length ≤ n := by
  classical
  have h1 : l.toFinset.card = l.length := List.toFinset_card_of_nodup hn
  have h2 : l.toFinset ⊆ Finset.range n := by
    intro c hc
    simp only [List.mem_toFinset] at hc
    exact Finset.mem_range.mpr (hr c hc)
  have := Finset.card_le_card h2
  simp [h1, Finset.card_range] at this
  omega

/-- Unfolding equation for `childIds`. -/
theorem childIds_def (t : Tree T) (id : Nat) :
    childIds t id = (chainN t (sibFuel t) (t.nodeAt id).first_child).getD [] := rfl

/-- Allocation never hands out a slot that is currently occupied and
in range (it pops an unoccupied free slot or grows the arena). -/
theorem get_node_fresh (t : Tree T) (x : T)
    (hfree1 : ∀ f, t.free = some f → f < t.nodes.length)
    (hfree2 : ∀ f, t.free = some f → (t.nodeAt f).data = none) :
    ∀ j, j < t.nodes.length → (t.nodeAt j).data.isSome = true → j ≠ (t.get_node x).2 := by
  obtain ⟨_, _, _, _, _, _, _, G8, G9⟩ := get_node_spec t x hfree1
  intro j hj hocc he
  rcases hfq : t.free with _ | f
  · rw [G8 hfq] at he
    omega
  · rw [G9 f hfq] at he
    subst he
    rw [hfree2 j hfq] at hocc
    cases hocc

/-- `new_node(x, LastChild, N)` appends the fresh node as `N`'s new last
child, preserving the previous children's order. -/
theorem new_node_last_child_spec (t : Tree T) (x : T) (N : Nat)
    (hfree1 : ∀ f, t.free = some f → f < t.nodes.length)
    (hfree2 : ∀ f, t.free = some f → (t.nodeAt f).data = none)
    (hvN : t.valid_node N = .ok ())
    (hchain : (chainN t (sibFuel t) (t.nodeAt N).first_child).isSome = true)
    (hkids : ∀ c ∈ childIds t N, c < t.nodes.length ∧ (t.nodeAt c).data.isSome = true)
    (hnodup : (childIds t N).Nodup)
    (hNself : N ∉ childIds t N)
    (hlast : (t.nodeAt N).last_child = (childIds t N).getLast?) :
    (t.new_node x .LastChild N).2 = .ok (t.get_node x).2 ∧
    (((t.new_node x .LastChild N).1).nodeAt N).last_child = some (t.get_node x).2 ∧
    childIds (t.new_node x .LastChild N).1 N = childIds t N ++ [(t.get_node x).2] := by
  obtain ⟨G1, G2, G3, G4, G5, G6, G7, G8, G9⟩ := get_node_spec t x hfree1
  have hfresh := get_node_fresh t x hfree1 hfree2
  have hvN' := (valid_node_ok_iff t N).1 hvN
  have hNnew : N ≠ (t.get_node x).2 := hfresh N hvN'.1 hvN'.2
  have hEq : t.new_node x .LastChild N =
      (Tree.append_child (t.get_node x).1 N (t.get_node x).2, .ok (t.get_node x).2) := by
    unfold Tree.new_node
    dsimp only
    rw [hvN]
    rfl
  have ht1N : (t.get_node x).1.nodeAt N = t.nodeAt N := G2 N hNnew
  have hkid_ne : ∀ c ∈ childIds t N, c ≠ (t.get_node x).2 := fun c hc =>
    hfresh c (hkids c hc).1 (hkids c hc).2
  have hcid1 : childIds (t.get_node x).1 N = childIds t N := by
    refine childIds_stable t (t.get_node x).1 N G5 (by rw [ht1N]) hchain ?_
    intro c hc
    rw [G2 c (hkid_ne c hc)]
  have hlcN1 : ((t.get_node x).1.nodeAt N).last_child ≠ some N := by
    rw [ht1N, hlast]
    intro hcon
    exact hNself (List.mem_of_mem_getLast? hcon)
  have hlcnew1 : ((t.get_node x).1.nodeAt N).last_child ≠ some (t.get_node x).2 := by
    rw [ht1N, hlast]
    intro hcon
    exact (hkid_ne _ (List.mem_of_mem_getLast? hcon)) rfl
  have hlcrange1 : ∀ q, ((t.get_node x).1.nodeAt N).last_child = some q →
      q < (t.get_node x).1.nodes.length := by
    rw [ht1N, hlast]
    intro q hq
    exact lt_of_lt_of_le (hkids q (List.mem_of_mem_getLast? hq)).1 G5
  obtain ⟨P1, P2, P3, P4, P5, P6, P7, P8⟩ :=
    append_child_spec (t.get_node x).1 N (t.get_node x).2 (lt_of_lt_of_le hvN'.1 G5) G4
      hNnew hlcN1 hlcnew1 hlcrange1
  have hnwnil :
      ((Tree.append_child (t.get_node x).1 N (t.get_node x).2).nodeAt
        (t.get_node x).2).next_sib = none := by
    rw [P1]
    show ((t.get_node x).1.nodeAt (t.get_node x).2).next_sib = none
    rw [G1]
  refine ⟨by rw [hEq], by rw [hEq]; rw [P2], ?_⟩
  rw [hEq]
  show childIds (Tree.append_child (t.get_node x).1 N (t.get_node x).2) N =
    childIds t N ++ [(t.get_node x).2]
  obtain ⟨l0, hl0⟩ := Option.isSome_iff_exists.1 hchain
  have hcid0 : childIds t N = l0 := by unfold childIds; rw [hl0]; rfl
  rcases hql : (childIds t N).getLast? with _ | q
  · have hnil : childIds t N = [] := List.getLast?_eq_none_iff.mp hql
    have hl0nil : l0 = [] := by rw [← hcid0, hnil]
    have hstart : (t.nodeAt N).first_child = none :=
      chainN_nil_start t (sibFuel t) _ (by rw [hl0, hl0nil])
    have hfc2 : ((Tree.append_child (t.get_node x).1 N (t.get_node x).2).nodeAt N).first_child
        = some (t.get_node x).2 := by
      rw [P2]
      show (if ((t.get_node x).1.nodeAt N).first_child.isNone then some (t.get_node x).2
        else ((t.get_node x).1.nodeAt N).first_child) = some (t.get_node x).2
      rw [ht1N, hstart]
      rfl
    rw [childIds_def (Tree.append_child (t.get_node x).1 N (t.get_node x).2) N]
    rw [hfc2, hnil]
    have hsf : sibFuel (Tree.append_child (t.get_node x).1 N (t.get_node x).2) =
        (Tree.append_child (t.get_node x).1 N (t.get_node x).2).nodes.length + 1 := rfl
    rw [hsf, chainN_singleton _ _ _ hnwnil]
    rfl
  · have hqmem : q ∈ childIds t N := List.mem_of_mem_getLast? hql
    have hne0 : childIds t N ≠ [] := by
      intro h
      rw [h] at hqmem
      cases hqmem
    have hgl : (childIds t N).getLast hne0 = q := by
      have h2 := List.getLast?_eq_getLast (childIds t N) hne0
      rw [hql] at h2
      exact (Option.some.inj h2).symm
    have hdecomp : (childIds t N).dropLast ++ [q] = childIds t N := by
      rw [← hgl]
      exact List.dropLast_concat_getLast hne0
    have hq_ne_nw : q ≠ (t.get_node x).2 := hkid_ne q hqmem
    have hq_ne_N : q ≠ N := fun h => hNself (h ▸ hqmem)
    have hq_not_drop : q ∉ (childIds t N).dropLast := by
      have hnd : ((childIds t N).dropLast ++ [q]).Nodup := by rw [hdecomp]; exact hnodup
      intro hmem
      rw [List.nodup_append] at hnd
      exact hnd.2.2 hmem (List.mem_singleton_self q)
    have hlastq : ((t.get_node x).1.nodeAt N).last_child = some q := by
      rw [ht1N, hlast, hql]
    have hqnew : ((Tree.append_child (t.get_node x).1 N (t.get_node x).2).nodeAt q).next_sib
        = some (t.get_node x).2 := by
      rw [P3 q hlastq]
    have hagree : ∀ c ∈ (childIds t N).dropLast,
        ((Tree.append_child (t.get_node x).1 N (t.get_node x).2).nodeAt c).next_sib =
          (t.nodeAt c).next_sib := by
      intro c hc
      have hcmem : c ∈ childIds t N := by
        rw [← hdecomp]
        exact List.mem_append_left _ hc
      have hc_ne_nw : c ≠ (t.get_node x).2 := hkid_ne c hcmem
      have hc_ne_N : c ≠ N := fun h => hNself (h ▸ hcmem)
      have hc_ne_q : ((t.get_node x).1.nodeAt N).last_child ≠ some c := by
        rw [hlastq]
        intro h
        exact hq_not_drop ((Option.some.inj h) ▸ hc)
      rw [P4 c hc_ne_nw hc_ne_N hc_ne_q, G2 c hc_ne_nw]
    have hlen_le : (childIds t N).length ≤ t.nodes.length :=
      nodup_lt_length_le _ _ hnodup fun c hc => (hkids c hc).1
    have hlen_pos : 0 < (childIds t N).length := List.length_pos_of_ne_nil hne0
    have hdl : (childIds t N).dropLast.length = (childIds t N).length - 1 := by
      simp [List.length_dropLast]
    have hold : chainN t (sibFuel t) (t.nodeAt N).first_child =
        some ((childIds t N).dropLast ++ [q]) := by
      rw [hdecomp, hcid0]
      exact hl0
    have hsnoc := chainN_snoc t (Tree.append_child (t.get_node x).1 N (t.get_node x).2)
      (t.get_node x).2 q hqnew hnwnil (childIds t N).dropLast (sibFuel t)
      (sibFuel (Tree.append_child (t.get_node x).1 N (t.get_node x).2))
      ((t.nodeAt N).first_child) hold hagree
      (by
        show (childIds t N).dropLast.length + 2 ≤
          (Tree.append_child (t.get_node x).1 N (t.get_node x).2).nodes.length + 1
        rw [P5, hdl]
        omega)
    have hstart_some : ((t.get_node x).1.nodeAt N).first_child.isNone = false := by
      rw [ht1N]
      rcases hh : (t.nodeAt N).first_child with _ | h0
      · exfalso
        apply hne0
        rw [childIds_def, hh]
        cases hsf : sibFuel t <;> simp [chainN]
      · rfl
    have hfc2 : ((Tree.append_child (t.get_node x).1 N (t.get_node x).2).nodeAt N).first_child
        = (t.nodeAt N).first_child := by
      rw [P2]
      show (if ((t.get_node x).1.nodeAt N).first_child.isNone then some (t.get_node x).2
        else ((t.get_node x).1.nodeAt N).first_child) = (t.nodeAt N).first_child
      rw [hstart_some, ht1N]
      rfl
    rw [childIds_def (Tree.append_child (t.get_node x).1 N (t.get_node x).2) N]
    rw [hfc2, hsnoc]
    simp only [Option.getD_some]
    rw [hdecomp]

/-- The start of a successful nonempty walk is its first member. -/
theorem mem_of_chainN_start (t : Tree T) (F c : Nat) (l : List Nat)
    (h : chainN t F (some c) = some l) : c ∈ l := by
  cases F with
  | zero => simp [chainN] at h
  | succ F0 =>
      simp only [chainN, Option.map_eq_some'] at h
      obtain ⟨l', _, rfl⟩ := h
      exact List.mem_cons_self _ _

/-- `new_node(x, FirstChild, N)` prepends the fresh node as `N`'s new first
child, preserving the previous children's order. -/
theorem new_node_first_child_spec (t : Tree T) (x : T) (N : Nat)
    (hfree1 : ∀ f, t.free = some f → f < t.nodes.length)
    (hfree2 : ∀ f, t.free = some f → (t.nodeAt f).data = none)
    (hvN : t.valid_node N = .ok ())
    (hchain : (chainN t (sibFuel t) (t.nodeAt N).first_child).isSome = true)
    (hkids : ∀ c ∈ childIds t N, c < t.nodes.length ∧ (t.nodeAt c).data.isSome = true)
    (hnodup : (childIds t N).Nodup)
    (hNself : N ∉ childIds t N) :
    (t.new_node x .FirstChild N).2 = .ok (t.get_node x).2 ∧
    (((t.new_node x .FirstChild N).1).nodeAt N).first_child = some (t.get_node x).2 ∧
    childIds (t.new_node x .FirstChild N).1 N = (t.get_node x).2 :: childIds t N := by
  obtain ⟨G1, G2, G3, G4, G5, G6, G7, G8, G9⟩ := get_node_spec t x hfree1
  have hfresh := get_node_fresh t x hfree1 hfree2
  have hvN' := (valid_node_ok_iff t N).1 hvN
  have hNnew : N ≠ (t.get_node x).2 := hfresh N hvN'.1 hvN'.2
  have hEq : t.new_node x .FirstChild N =
      (Tree.prepend_child (t.get_node x).1 N (t.get_node x).2, .ok (t.get_node x).2) := by
    unfold Tree.new_node
    dsimp only
    rw [hvN]
    rfl
  have ht1N : (t.get_node x).1.nodeAt N = t.nodeAt N := G2 N hNnew
  have hkid_ne : ∀ c ∈ childIds t N, c ≠ (t.get_node x).2 := fun c hc =>
    hfresh c (hkids c hc).1 (hkids c hc).2
  obtain ⟨l0, hl0⟩ := Option.isSome_iff_exists.1 hchain
  have hcid0 : childIds t N = l0 := by unfold childIds; rw [hl0]; rfl
  have hfc_mem : ∀ f, (t.nodeAt N).first_child = some f → f ∈ childIds t N := by
    intro f hf
    rw [hcid0]
    exact mem_of_chainN_start t (sibFuel t) f l0 (by rw [← hf]; exact hl0)
  have hfcN1 : ((t.get_node x).1.nodeAt N).first_child ≠ some N := by
    rw [ht1N]
    intro hcon
    exact hNself (hfc_mem N hcon)
  have hfcnew1 : ((t.get_node x).1.nodeAt N).first_child ≠ some (t.get_node x).2 := by
    rw [ht1N]
    intro hcon
    exact (hkid_ne _ (hfc_mem _ hcon)) rfl
  have hfcrange1 : ∀ q, ((t.get_node x).1.nodeAt N).first_child = some q →
      q < (t.get_node x).1.nodes.length := by
    rw [ht1N]
    intro q hq
    exact lt_of_lt_of_le (hkids q (hfc_mem q hq)).1 G5
  obtain ⟨P1, P2, P3, P4, P5, P6, P7, P8⟩ :=
    prepend_child_spec (t.get_node x).1 N (t.get_node x).2 (lt_of_lt_of_le hvN'.1 G5) G4
      hNnew hfcN1 hfcnew1 hfcrange1
  refine ⟨by rw [hEq], ?_, ?_⟩
  · rw [hEq]
    show ((Tree.prepend_child (t.get_node x).1 N (t.get_node x).2).nodeAt N).first_child =
      some (t.get_node x).2
    rw [P2]
  · rw [hEq]
    show childIds (Tree.prepend_child (t.get_node x).1 N (t.get_node x).2) N =
      (t.get_node x).2 :: childIds t N
    have hagree : ∀ c ∈ childIds t N,
        ((Tree.prepend_child (t.get_node x).1 N (t.get_node x).2).nodeAt c).next_sib =
          (t.nodeAt c).next_sib := by
      intro c hc
      have hc_ne_nw : c ≠ (t.get_node x).2 := hkid_ne c hc
      have hc_ne_N : c ≠ N := fun h => hNself (h ▸ hc)
      by_cases hhead : ((t.get_node x).1.nodeAt N).first_child = some c
      · rw [P3 c hhead]
        show ((t.get_node x).1.nodeAt c).next_sib = (t.nodeAt c).next_sib
        rw [G2 c hc_ne_nw]
      · rw [P4 c hc_ne_nw hc_ne_N hhead, G2 c hc_ne_nw]
    have hstab : chainN (Tree.prepend_child (t.get_node x).1 N (t.get_node x).2) (sibFuel t)
        (t.nodeAt N).first_child = some l0 :=
      chainN_stable t _ (sibFuel t) _ l0 hl0 (fun c hc => hagree c (hcid0 ▸ hc))
    have hlen_le : l0.length ≤
        (Tree.prepend_child (t.get_node x).1 N (t.get_node x).2).nodes.length := by
      rw [P5]
      refine le_trans (nodup_lt_length_le l0 t.nodes.length (hcid0 ▸ hnodup) ?_) G5
      intro c hc
      exact (hkids c (hcid0 ▸ hc)).1
    have hrefuel := chainN_refuel _ l0 (sibFuel t)
      (Tree.prepend_child (t.get_node x).1 N (t.get_node x).2).nodes.length _ hstab hlen_le
    have hnwnext :
        ((Tree.prepend_child (t.get_node x).1 N (t.get_node x).2).nodeAt
          (t.get_node x).2).next_sib = (t.nodeAt N).first_child := by
      rw [P1]
      show ((t.get_node x).1.nodeAt N).first_child = (t.nodeAt N).first_child
      rw [ht1N]
    rw [childIds_def (Tree.prepend_child (t.get_node x).1 N (t.get_node x).2) N, P2]
    show (chainN (Tree.prepend_child (t.get_node x).1 N (t.get_node x).2)
      ((Tree.prepend_child (t.get_node x).1 N (t.get_node x).2).nodes.length + 1)
      (some (t.get_node x).2)).getD [] = (t.get_node x).2 :: childIds t N
    simp only [chainN, hnwnext, hrefuel, Option.map_some', Option.getD_some]
    rw [hcid0]

/-- `valid_sib` succeeds exactly on in-range occupied non-root slots. -/
theorem valid_sib_ok_iff (t : Tree T) (i : Nat) :
    t.valid_sib i = .ok () ↔
      i < t.nodes.length ∧ (t.nodeAt i).data.isSome = true ∧ t.root ≠ some i := by
  unfold Tree.valid_sib
  split_ifs with h1 h2 h3
  · constructor
    · intro h; cases h
    · intro h; exact absurd h.1 (by omega)
  · constructor
    · intro h; cases h
    · intro h
      rw [Option.isNone_iff_eq_none] at h2
      rw [h2] at h
      simp at h
  · constructor
    · intro h; cases h
    · intro h; exact absurd h3 h.2.2
  · constructor
    · intro _
      exact ⟨by omega, by simpa [Option.isSome_iff_ne_none] using h2, h3⟩
    · intro _; rfl

/-- `new_node(x, SiblingBefore, S)` places the fresh node immediately
before `S` in `S`'s sibling list without disturbing `S`'s other
neighbor. -/
theorem new_node_sibling_before_spec (t : Tree T) (x : T) (S : Nat)
    (hfree1 : ∀ f, t.free = some f → f < t.nodes.length)
    (hfree2 : ∀ f, t.free = some f → (t.nodeAt f).data = none)
    (hvS : t.valid_sib S = .ok ())
    (hprev : ∀ p, (t.nodeAt S).prev_sib = some p →
        p < t.nodes.length ∧ (t.nodeAt p).data.isSome = true ∧ p ≠ S)
    (hpar : ∀ p, (t.nodeAt S).parent = some p →
        p < t.nodes.length ∧ (t.nodeAt p).data.isSome = true ∧ p ≠ S) :
    (t.new_node x .SiblingBefore S).2 = .ok (t.get_node x).2 ∧
    (((t.new_node x .SiblingBefore S).1).nodeAt (t.get_node x).2).next_sib = some S ∧
    (((t.new_node x .SiblingBefore S).1).nodeAt (t.get_node x).2).prev_sib =
      (t.nodeAt S).prev_sib ∧
    (((t.new_node x .SiblingBefore S).1).nodeAt S).prev_sib = some (t.get_node x).2 ∧
    (((t.new_node x .SiblingBefore S).1).nodeAt S).next_sib = (t.nodeAt S).next_sib ∧
    (∀ p, (t.nodeAt S).prev_sib = some p →
      (((t.new_node x .SiblingBefore S).1).nodeAt p).next_sib = some (t.get_node x).2 ∧
      (((t.new_node x .SiblingBefore S).1).nodeAt p).prev_sib = (t.nodeAt p).prev_sib) ∧
    ((t.nodeAt S).prev_sib = none → ∀ par, (t.nodeAt S).parent = some par →
      (((t.new_node x .SiblingBefore S).1).nodeAt par).first_child = some (t.get_node x).2) := by
  obtain ⟨G1, G2, G3, G4, G5, G6, G7, G8, G9⟩ := get_node_spec t x hfree1
  have hfresh := get_node_fresh t x hfree1 hfree2
  have hvS' := (valid_sib_ok_iff t S).1 hvS
  have hSnew : S ≠ (t.get_node x).2 := hfresh S hvS'.1 hvS'.2.1
  have hEq : t.new_node x .SiblingBefore S =
      (Tree.add_sibling_before (t.get_node x).1 S (t.get_node x).2, .ok (t.get_node x).2) := by
    unfold Tree.new_node
    dsimp only
    rw [hvS]
    rfl
  have ht1S : (t.get_node x).1.nodeAt S = t.nodeAt S := G2 S hSnew
  have hpS1 : ((t.get_node x).1.nodeAt S).prev_sib ≠ some S := by
    rw [ht1S]
    intro h
    exact (hprev S h).2.2 rfl
  have hpnew1 : ((t.get_node x).1.nodeAt S).prev_sib ≠ some (t.get_node x).2 := by
    rw [ht1S]
    intro h
    exact hfresh _ (hprev _ h).1 (hprev _ h).2.1 rfl
  have hprange1 : ∀ p, ((t.get_node x).1.nodeAt S).prev_sib = some p →
      p < (t.get_node x).1.nodes.length := by
    rw [ht1S]
    intro p hp
    exact lt_of_lt_of_le (hprev p hp).1 G5
  have hparS1 : ((t.get_node x).1.nodeAt S).parent ≠ some S := by
    rw [ht1S]
    intro h
    exact (hpar S h).2.2 rfl
  have hparnew1 : ((t.get_node x).1.nodeAt S).parent ≠ some (t.get_node x).2 := by
    rw [ht1S]
    intro h
    exact hfresh _ (hpar _ h).1 (hpar _ h).2.1 rfl
  have hparrange1 : ∀ p, ((t.get_node x).1.nodeAt S).parent = some p →
      p < (t.get_node x).1.nodes.length := by
    rw [ht1S]
    intro p hp
    exact lt_of_lt_of_le (hpar p hp).1 G5
  obtain ⟨Q1, Q2, Q3, Q4, Q5, Q6, Q7, Q8, Q9⟩ :=
    add_sibling_before_spec (t.get_node x).1 S (t.get_node x).2
      (lt_of_lt_of_le hvS'.1 G5) G4 hSnew hpS1 hpnew1 hprange1 hparS1 hparnew1 hparrange1
  refine ⟨by rw [hEq], ?_, ?_, ?_, ?_, ?_, ?_⟩
  · rw [hEq]
    show ((Tree.add_sibling_before (t.get_node x).1 S (t.get_node x).2).nodeAt
      (t.get_node x).2).next_sib = some S
    rw [Q1]
  · rw [hEq]
    show ((Tree.add_sibling_before (t.get_node x).1 S (t.get_node x).2).nodeAt
      (t.get_node x).2).prev_sib = (t.nodeAt S).prev_sib
    rw [Q1]
    show ((t.get_node x).1.nodeAt S).prev_sib = (t.nodeAt S).prev_sib
    rw [ht1S]
  · rw [hEq]
    show ((Tree.add_sibling_before (t.get_node x).1 S (t.get_node x).2).nodeAt S).prev_sib =
      some (t.get_node x).2
    rw [Q2]
  · rw [hEq]
    show ((Tree.add_sibling_before (t.get_node x).1 S (t.get_node x).2).nodeAt S).next_sib =
      (t.nodeAt S).next_sib
    rw [Q2]
    show ((t.get_node x).1.nodeAt S).next_sib = (t.nodeAt S).next_sib
    rw [ht1S]
  · rw [hEq]
    intro p hp
    have hp1 : ((t.get_node x).1.nodeAt S).prev_sib = some p := by rw [ht1S]; exact hp
    have hp_ne_nw : p ≠ (t.get_node x).2 := fun h =>
      hfresh p (hprev p hp).1 (hprev p hp).2.1 h
    constructor
    · show ((Tree.add_sibling_before (t.get_node x).1 S (t.get_node x).2).nodeAt p).next_sib =
        some (t.get_node x).2
      rw [Q3 p hp1]
    · show ((Tree.add_sibling_before (t.get_node x).1 S (t.get_node x).2).nodeAt p).prev_sib =
        (t.nodeAt p).prev_sib
      rw [Q3 p hp1]
      show ((t.get_node x).1.nodeAt p).prev_sib = (t.nodeAt p).prev_sib
      rw [G2 p hp_ne_nw]
  · rw [hEq]
    intro hnone par hpr
    have hnone1 : ((t.get_node x).1.nodeAt S).prev_sib = none := by rw [ht1S]; exact hnone
    have hpr1 : ((t.get_node x).1.nodeAt S).parent = some par := by rw [ht1S]; exact hpr
    show ((Tree.add_sibling_before (t.get_node x).1 S (t.get_node x).2).nodeAt par).first_child
      = some (t.get_node x).2
    rw [Q4 hnone1 par hpr1]

/-- `new_node(x, SiblingAfter, S)` places the fresh node immediately after
`S` in `S`'s sibling list without disturbing `S`'s other neighbor. -/
theorem new_node_sibling_after_spec (t : Tree T) (x : T) (S : Nat)
    (hfree1 : ∀ f, t.free = some f → f < t.nodes.length)
    (hfree2 : ∀ f, t.free = some f → (t.nodeAt f).data = none)
    (hvS : t.valid_sib S = .ok ())
    (hnext : ∀ p, (t.nodeAt S).next_sib = some p →
        p < t.nodes.length ∧ (t.nodeAt p).data.isSome = true ∧ p ≠ S)
    (hpar : ∀ p, (t.nodeAt S).parent = some p →
        p < t.nodes.length ∧ (t.nodeAt p).data.isSome = true ∧ p ≠ S) :
    (t.new_node x .SiblingAfter S).2 = .ok (t.get_node x).2 ∧
    (((t.new_node x .SiblingAfter S).1).nodeAt (t.get_node x).2).prev_sib = some S ∧
    (((t.new_node x .SiblingAfter S).1).nodeAt (t.get_node x).2).next_sib =
      (t.nodeAt S).next_sib ∧
    (((t.new_node x .SiblingAfter S).1).nodeAt S).next_sib = some (t.get_node x).2 ∧
    (((t.new_node x .SiblingAfter S).1).nodeAt S).prev_sib = (t.nodeAt S).prev_sib ∧
    (∀ p, (t.nodeAt S).next_sib = some p →
      (((t.new_node x .SiblingAfter S).1).nodeAt p).prev_sib = some (t.get_node x).2 ∧
      (((t.new_node x .SiblingAfter S).1).nodeAt p).next_sib = (t.nodeAt p).next_sib) ∧
    ((t.nodeAt S).next_sib = none → ∀ par, (t.nodeAt S).parent = some par →
      (((t.new_node x .SiblingAfter S).1).nodeAt par).last_child = some (t.get_node x).2) := by
  obtain ⟨G1, G2, G3, G4, G5, G6, G7, G8, G9⟩ := get_node_spec t x hfree1
  have hfresh := get_node_fresh t x hfree1 hfree2
  have hvS' := (valid_sib_ok_iff t S).1 hvS
  have hSnew : S ≠ (t.get_node x).2 := hfresh S hvS'.1 hvS'.2.1
  have hEq : t.new_node x .SiblingAfter S =
      (Tree.add_sibling_after (t.get_node x).1 S (t.get_node x).2, .ok (t.get_node x).2) := by
    unfold Tree.new_node
    dsimp only
    rw [hvS]
    rfl
  have ht1S : (t.get_node x).1.nodeAt S = t.nodeAt S := G2 S hSnew
  have hpS1 : ((t.get_node x).1.nodeAt S).next_sib ≠ some S := by
    rw [ht1S]
    intro h
    exact (hnext S h).2.2 rfl
  have hpnew1 : ((t.get_node x).1.nodeAt S).next_sib ≠ some (t.get_node x).2 := by
    rw [ht1S]
    intro h
    exact hfresh _ (hnext _ h).1 (hnext _ h).2.1 rfl
  have hprange1 : ∀ p, ((t.get_node x).1.nodeAt S).next_sib = some p →
      p < (t.get_node x).1.nodes.length := by
    rw [ht1S]
    intro p hp
    exact lt_of_lt_of_le (hnext p hp).1 G5
  have hparS1 : ((t.get_node x).1.nodeAt S).parent ≠ some S := by
    rw [ht1S]
    intro h
    exact (hpar S h).2.2 rfl
  have hparnew1 : ((t.get_node x).1.nodeAt S).parent ≠ some (t.get_node x).2 := by
    rw [ht1S]
    intro h
    exact hfresh _ (hpar _ h).1 (hpar _ h).2.1 rfl
  have hparrange1 : ∀ p, ((t.get_node x).1.nodeAt S).parent = some p →
      p < (t.get_node x).1.nodes.length := by
    rw [ht1S]
    intro p hp
    exact lt_of_lt_of_le (hpar p hp).1 G5
  obtain ⟨Q1, Q2, Q3, Q4, Q5, Q6, Q7, Q8, Q9⟩ :=
    add_sibling_after_spec (t.get_node x).1 S (t.get_node x).2
      (lt_of_lt_of_le hvS'.1 G5) G4 hSnew hpS1 hpnew1 hprange1 hparS1 hparnew1 hparrange1
  refine ⟨by rw [hEq], ?_, ?_, ?_, ?_, ?_, ?_⟩
  · rw [hEq]
    show ((Tree.add_sibling_after (t.get_node x).1 S (t.get_node x).2).nodeAt
      (t.get_node x).2).prev_sib = some S
    rw [Q1]
  · rw [hEq]
    show ((Tree.add_sibling_after (t.get_node x).1 S (t.get_node x).2).nodeAt
      (t.get_node x).2).next_sib = (t.nodeAt S).next_sib
    rw [Q1]
    show ((t.get_node x).1.nodeAt S).next_sib = (t.nodeAt S).next_sib
    rw [ht1S]
  · rw [hEq]
    show ((Tree.add_sibling_after (t.get_node x).1 S (t.get_node x).2).nodeAt S).next_sib =
      some (t.get_node x).2
    rw [Q2]
  · rw [hEq]
    show ((Tree.add_sibling_after (t.get_node x).1 S (t.get_node x).2).nodeAt S).prev_sib =
      (t.nodeAt S).prev_sib
    rw [Q2]
    show ((t.get_node x).1.nodeAt S).prev_sib = (t.nodeAt S).prev_sib
    rw [ht1S]
  · rw [hEq]
    intro p hp
    have hp1 : ((t.get_node x).1.nodeAt S).next_sib = some p := by rw [ht1S]; exact hp
    have hp_ne_nw : p ≠ (t.get_node x).2 := fun h =>
      hfresh p (hnext p hp).1 (hnext p hp).2.1 h
    constructor
    · show ((Tree.add_sibling_after (t.get_node x).1 S (t.get_node x).2).nodeAt p).prev_sib =
        some (t.get_node x).2
      rw [Q3 p hp1]
    · show ((Tree.add_sibling_after (t.get_node x).1 S (t.get_node x).2).nodeAt p).next_sib =
        (t.nodeAt p).next_sib
      rw [Q3 p hp1]
      show ((t.get_node x).1.nodeAt p).next_sib = (t.nodeAt p).next_sib
      rw [G2 p hp_ne_nw]
  · rw [hEq]
    intro hnone par hpr
    have hnone1 : ((t.get_node x).1.nodeAt S).next_sib = none := by rw [ht1S]; exact hnone
    have hpr1 : ((t.get_node x).1.nodeAt S).parent = some par := by rw [ht1S]; exact hpr
    show ((Tree.add_sibling_after (t.get_node x).1 S (t.get_node x).2).nodeAt par).last_child
      = some (t.get_node x).2
    rw [Q4 hnone1 par hpr1]

/-- C7: position semantics of `new_node`.  Inserting as `LastChild`
(respectively `FirstChild`) of an occupied node `N` sets `N`'s `last_child`
(respectively `first_child`) to the new node and preserves the relative
order of `N`'s prior children (the child list becomes the old list with
the new id appended, respectively prepended); inserting as `SiblingBefore`
(respectively `SiblingAfter`) of a non-root occupied node `S` places the
new node immediately before (respectively after) `S` in `S`'s sibling
list — the mutual links between the new node, `S`, and `S`'s displaced
neighbor are set, while `S`'s other neighbor link and the displaced
neighbor's outer link are untouched.  The hypotheses are the
well-formedness facts every tree reachable through the public API
provides: in-range unoccupied free-list head, terminating duplicate-free
child walk below `N` with occupied members not containing `N`, `N`'s
`last_child` pointing at the last child, and occupied in-range neighbors
of `S`. -/
theorem C7_insert_position_semantics (t : Tree T) (x : T) (N S : Nat)
    (hfree1 : ∀ f, t.free = some f → f < t.nodes.length)
    (hfree2 : ∀ f, t.free = some f → (t.nodeAt f).data = none)
    (hvN : t.valid_node N = .ok ())
    (hchain : (chainN t (sibFuel t) (t.nodeAt N).first_child).isSome = true)
    (hkids : ∀ c ∈ childIds t N, c < t.nodes.length ∧ (t.nodeAt c).data.isSome = true)
    (hnodup : (childIds t N).Nodup)
    (hNself : N ∉ childIds t N)
    (hlast : (t.nodeAt N).last_child = (childIds t N).getLast?)
    (hvS : t.valid_sib S = .ok ())
    (hprev : ∀ p, (t.nodeAt S).prev_sib = some p →
        p < t.nodes.length ∧ (t.nodeAt p).data.isSome = true ∧ p ≠ S)
    (hnext : ∀ p, (t.nodeAt S).next_sib = some p →
        p < t.nodes.length ∧ (t.nodeAt p).data.isSome = true ∧ p ≠ S)
    (hpar : ∀ p, (t.nodeAt S).parent = some p →
        p < t.nodes.length ∧ (t.nodeAt p).data.isSome = true ∧ p ≠ S) :
    ((t.new_node x .LastChild N).2 = .ok (t.get_node x).2 ∧
     (((t.new_node x .LastChild N).1).nodeAt N).last_child = some (t.get_node x).2 ∧
     childIds (t.new_node x .LastChild N).1 N = childIds t N ++ [(t.get_node x).2]) ∧
    ((t.new_node x .FirstChild N).2 = .ok (t.get_node x).2 ∧
     (((t.new_node x .FirstChild N).1).nodeAt N).first_child = some (t.get_node x).2 ∧
     childIds (t.new_node x .FirstChild N).1 N = (t.get_node x).2 :: childIds t N) ∧
    ((t.new_node x .SiblingBefore S).2 = .ok (t.get_node x).2 ∧
     (((t.new_node x .SiblingBefore S).1).nodeAt (t.get_node x).2).next_sib = some S ∧
     (((t.new_node x .SiblingBefore S).1).nodeAt (t.get_node x).2).prev_sib =
       (t.nodeAt S).prev_sib ∧
     (((t.new_node x .SiblingBefore S).1).nodeAt S).prev_sib = some (t.get_node x).2 ∧
     (((t.new_node x .SiblingBefore S).1).nodeAt S).next_sib = (t.nodeAt S).next_sib ∧
     (∀ p, (t.nodeAt S).prev_sib = some p →
       (((t.new_node x .SiblingBefore S).1).nodeAt p).next_sib = some (t.get_node x).2 ∧
       (((t.new_node x .SiblingBefore S).1).nodeAt p).prev_sib = (t.nodeAt p).prev_sib) ∧
     ((t.nodeAt S).prev_sib = none → ∀ par, (t.nodeAt S).parent = some par →
       (((t.new_node x .SiblingBefore S).1).nodeAt par).first_child =
         some (t.get_node x).2)) ∧
    ((t.new_node x .SiblingAfter S).2 = .ok (t.get_node x).2 ∧
     (((t.new_node x .SiblingAfter S).1).nodeAt (t.get_node x).2).prev_sib = some S ∧
     (((t.new_node x .SiblingAfter S).1).nodeAt (t.get_node x).2).next_sib =
       (t.nodeAt S).next_sib ∧
     (((t.new_node x .SiblingAfter S).1).nodeAt S).next_sib = some (t.get_node x).2 ∧
     (((t.new_node x .SiblingAfter S).1).nodeAt S).prev_sib = (t.nodeAt S).prev_sib ∧
     (∀ p, (t.nodeAt S).next_sib = some p →
       (((t.new_node x .SiblingAfter S).1).nodeAt p).prev_sib = some (t.get_node x).2 ∧
       (((t.new_node x .SiblingAfter S).1).nodeAt p).next_sib = (t.nodeAt p).next_sib) ∧
     ((t.nodeAt S).next_sib = none → ∀ par, (t.nodeAt S).parent = some par →
       (((t.new_node x .SiblingAfter S).1).nodeAt par).last_child =
         some (t.get_node x).2)) :=
  ⟨new_node_last_child_spec t x N hfree1 hfree2 hvN hchain hkids hnodup hNself hlast,
   new_node_first_child_spec t x N hfree1 hfree2 hvN hchain hkids hnodup hNself,
   new_node_sibling_before_spec t x S hfree1 hfree2 hvS hprev hpar,
   new_node_sibling_after_spec t x S hfree1 hfree2 hvS hnext hpar⟩

/-- Witness for C7: appending payload 99 as last child of node 2 of the
five-node example tree extends node 2's child list by the fresh id. -/
theorem C7_witness :
    childIds (exTree5.new_node 99 .LastChild 2).1 2 =
      childIds exTree5 2 ++ [(exTree5.get_node 99).2] :=
  (C7_insert_position_semantics exTree5 99 2 1
    (fun f hf => Option.noConfusion hf)
    (fun f hf => Option.noConfusion hf)
    (by decide) (by decide) (by decide) (by decide) (by decide) (by decide) (by decide)
    (by intro p hp
        rw [show (exTree5.nodeAt 1).prev_sib = none from by decide] at hp
        exact Option.noConfusion hp)
    (by intro p hp
        rw [show (exTree5.nodeAt 1).next_sib = some 2 from by decide] at hp
        cases hp
        decide)
    (by intro p hp
        rw [show (exTree5.nodeAt 1).parent = some 0 from by decide] at hp
        cases hp
        decide)).1.2.2

/-! ## Round trip: rose-tree bookkeeping -/

theorem sizeR_pos (rt : RTree T) : 1 ≤ rt.size := by
  cases rt with
  | node x cs => simp [RTree.size]

theorem rootsPos_length : ∀ (cs : List (RTree T)) (b : Nat),
    (rootsPos cs b).length = cs.length
  | [], _ => rfl
  | c :: cs, b => by simp [rootsPos, rootsPos_length cs]

theorem rootsPos_bounds : ∀ (cs : List (RTree T)) (b : Nat),
    ∀ r ∈ rootsPos cs b, b ≤ r ∧ r < b + sizeListR cs
  | [], _ => by simp [rootsPos]
  | c :: cs, b => by
      intro r hr
      simp only [rootsPos, List.mem_cons] at hr
      have hc := sizeR_pos c
      rcases hr with rfl | hr
      · simp only [sizeListR]; omega
      · have := rootsPos_bounds cs (b + c.size) r hr
        simp only [sizeListR]; omega

theorem u32_round (n : Nat) (h : n < 2 ^ 32) (rest : List Nat) :
    u32FromBytes (u32IntoBytes n ++ rest) = .ok (n, rest) := by
  simp only [u32IntoBytes, List.cons_append, List.nil_append, u32FromBytes, Except.ok.injEq,
    Prod.mk.injEq]
  refine ⟨?_, trivial⟩
  omega

theorem flatListR_map (g : α → RTree T) : ∀ l : List α,
    flatListR (l.map g) = l.flatMap fun a => (g a).flat
  | [] => rfl
  | a :: l => by simp [flatListR, flatListR_map g l]

theorem flat_length_aux : ∀ k : Nat,
    (∀ rt : RTree T, rt.size ≤ k → rt.flat.length = rt.size) ∧
    (∀ cs : List (RTree T), sizeListR cs ≤ k → (flatListR cs).length = sizeListR cs) := by
  intro k
  induction k with
  | zero =>
      refine ⟨fun rt h => absurd (le_trans (sizeR_pos rt) h) (by omega), fun cs h => ?_⟩
      cases cs with
      | nil => rfl
      | cons c cs => exfalso; have := sizeR_pos c; simp [sizeListR] at h; omega
  | succ k ih =>
      have htree : ∀ rt : RTree T, rt.size ≤ k + 1 → rt.flat.length = rt.size := by
        intro rt h
        cases rt with
        | node x cs =>
            have hcs : sizeListR cs ≤ k := by simp [RTree.size] at h; omega
            simp [RTree.flat, RTree.size, ih.2 cs hcs]
            omega
      refine ⟨htree, fun cs h => ?_⟩
      cases cs with
      | nil => rfl
      | cons c cs =>
          have h1 : c.size ≤ k + 1 := by simp [sizeListR] at h; omega
          have h2 : sizeListR cs ≤ k := by have := sizeR_pos c; simp [sizeListR] at h; omega
          simp [flatListR, sizeListR, htree c h1, ih.2 cs h2]

theorem flat_length (rt : RTree T) : rt.flat.length = rt.size :=
  (flat_length_aux rt.size).1 rt le_rfl

theorem flatListR_length (cs : List (RTree T)) : (flatListR cs).length = sizeListR cs :=
  (flat_length_aux (sizeListR cs)).2 cs le_rfl

theorem height_le_size_aux : ∀ k : Nat,
    (∀ rt : RTree T, rt.size ≤ k → rt.height ≤ rt.size) ∧
    (∀ cs : List (RTree T), sizeListR cs ≤ k → heightListR cs ≤ sizeListR cs) := by
  intro k
  induction k with
  | zero =>
      refine ⟨fun rt h => absurd (le_trans (sizeR_pos rt) h) (by omega), fun cs h => ?_⟩
      cases cs with
      | nil => simp [heightListR]
      | cons c cs => exfalso; have := sizeR_pos c; simp [sizeListR] at h; omega
  | succ k ih =>
      have htree : ∀ rt : RTree T, rt.size ≤ k + 1 → rt.height ≤ rt.size := by
        intro rt h
        cases rt with
        | node x cs =>
            have hcs : sizeListR cs ≤ k := by simp [RTree.size] at h; omega
            have := ih.2 cs hcs
            simp only [RTree.height, RTree.size]
            omega
      refine ⟨htree, fun cs h => ?_⟩
      cases cs with
      | nil => simp [heightListR]
      | cons c cs =>
          have h1 : c.height ≤ c.size := htree c (by simp [sizeListR] at h; omega)
          have h2 : heightListR cs ≤ sizeListR cs := by
            refine ih.2 cs ?_
            have := sizeR_pos c
            simp [sizeListR] at h
            omega
          simp only [heightListR, sizeListR]
          exact max_le (by omega) (by omega)

theorem heightR_le_size (rt : RTree T) : rt.height ≤ rt.size :=
  (height_le_size_aux rt.size).1 rt le_rfl

theorem heightListR_le_size (cs : List (RTree T)) : heightListR cs ≤ sizeListR cs :=
  (height_le_size_aux (sizeListR cs)).2 cs le_rfl

theorem encR_flat_aux (enc : T → List Nat) : ∀ k : Nat,
    (∀ rt : RTree T, rt.size ≤ k →
      encR enc rt = rt.flat.flatMap fun pc => enc pc.1 ++ u32IntoBytes pc.2) ∧
    (∀ cs : List (RTree T), sizeListR cs ≤ k →
      encListR enc cs = (flatListR cs).flatMap fun pc => enc pc.1 ++ u32IntoBytes pc.2) := by
  intro k
  induction k with
  | zero =>
      refine ⟨fun rt h => absurd (le_trans (sizeR_pos rt) h) (by omega), fun cs h => ?_⟩
      cases cs with
      | nil => rfl
      | cons c cs => exfalso; have := sizeR_pos c; simp [sizeListR] at h; omega
  | succ k ih =>
      have htree : ∀ rt : RTree T, rt.size ≤ k + 1 →
          encR enc rt = rt.flat.flatMap fun pc => enc pc.1 ++ u32IntoBytes pc.2 := by
        intro rt h
        cases rt with
        | node x cs =>
            have hcs : sizeListR cs ≤ k := by simp [RTree.size] at h; omega
            simp [encR, RTree.flat, ih.2 cs hcs]
      refine ⟨htree, fun cs h => ?_⟩
      cases cs with
      | nil => rfl
      | cons c cs =>
          have h1 : c.size ≤ k + 1 := by simp [sizeListR] at h; omega
          have h2 : sizeListR cs ≤ k := by have := sizeR_pos c; simp [sizeListR] at h; omega
          simp [encListR, flatListR, htree c h1, ih.2 cs h2]

theorem encR_eq_flat (enc : T → List Nat) (rt : RTree T) :
    encR enc rt = rt.flat.flatMap fun pc => enc pc.1 ++ u32IntoBytes pc.2 :=
  (encR_flat_aux enc rt.size).1 rt le_rfl

theorem encListR_eq_flat (enc : T → List Nat) (cs : List (RTree T)) :
    encListR enc cs = (flatListR cs).flatMap fun pc => enc pc.1 ++ u32IntoBytes pc.2 :=
  (encR_flat_aux enc (sizeListR cs)).2 cs le_rfl

theorem length_le_flatMap (f : α → List β) : ∀ l : List α,
    (∀ a ∈ l, 1 ≤ (f a).length) → l.length ≤ (l.flatMap f).length
  | [] => by simp
  | a :: l => by
      intro h
      simp only [List.flatMap_cons, List.length_append, List.length_cons]
      have h1 := h a (List.mem_cons_self a l)
      have h2 := length_le_flatMap f l fun b hb => h b (List.mem_cons_of_mem a hb)
      omega

theorem size_le_encR (enc : T → List Nat) (rt : RTree T) : rt.size ≤ (encR enc rt).length := by
  rw [encR_eq_flat, ← flat_length rt]
  refine length_le_flatMap _ _ fun pc _ => ?_
  simp only [List.length_append, u32IntoBytes, List.length_cons, List.length_nil]
  omega

theorem childIds_length_le (t : Tree T) (id : Nat) : (childIds t id).length ≤ sibFuel t := by
  unfold childIds
  rcases h : chainN t (sibFuel t) (t.nodeAt id).first_child with _ | l
  · simp
  · simpa using chainN_length_le t _ _ l h

theorem extract_counts_le [Inhabited T] (t : Tree T) : ∀ (F id : Nat),
    ∀ pc ∈ (extractR t F id).flat, pc.2 ≤ sibFuel t := by
  intro F
  induction F with
  | zero =>
      intro id pc hpc
      simp [extractR, RTree.flat, flatListR] at hpc
      simp [hpc]
  | succ F ih =>
      intro id pc hpc
      simp only [extractR, RTree.flat, List.mem_cons] at hpc
      rcases hpc with rfl | hpc
      · simpa [List.length_map] using childIds_length_le t id
      · rw [flatListR_map] at hpc
        simp only [List.mem_flatMap] at hpc
        obtain ⟨c, _, hc⟩ := hpc
        exact ih c pc hc

theorem extract_flat [Inhabited T] (t : Tree T) : ∀ (F id cur : Nat),
    travOk t F id = true →
    (subTreeInfoAux t F id cur).map (fun n => (payloadD t n.id, n.child_count)) =
      (extractR t F id).flat := by
  intro F
  induction F with
  | zero => intro id cur h; simp [travOk] at h
  | succ F ih =>
      intro id cur h
      simp only [travOk, Bool.and_eq_true, List.all_eq_true] at h
      obtain ⟨hchain, hkids⟩ := h
      simp only [subTreeInfoAux, extractR, RTree.flat, List.map_cons]
      rw [flatListR_map]
      congr 1
      · simp [List.length_map]
      · rw [List.map_flatMap]
        exact List.flatMap_congr fun c hc => ih c (cur + 1) (hkids c hc)

/-! ## Round trip: the decoder's arena effect -/

theorem get_node_none_spec (t : Tree T) (x : T) (hf : t.free = none) :
    (t.get_node x).2 = t.nodes.length ∧
    (t.get_node x).1.nodes = t.nodes ++ [Node.new x] ∧
    (t.get_node x).1.free = none ∧
    (t.get_node x).1.root = t.root ∧
    (t.get_node x).1.len = t.len + 1 := by
  unfold Tree.get_node Tree.pop_free
  dsimp only
  rw [hf]
  exact ⟨rfl, rfl, rfl, rfl, rfl⟩

theorem get_node_none_nodeAt (t : Tree T) (x : T) (hf : t.free = none) :
    (t.get_node x).1.nodeAt t.nodes.length = Node.new x ∧
    (∀ j, j ≠ t.nodes.length → (t.get_node x).1.nodeAt j = t.nodeAt j) ∧
    (t.get_node x).1.nodes.length = t.nodes.length + 1 := by
  obtain ⟨-, hnodes, -, -, -⟩ := get_node_none_spec t x hf
  refine ⟨?_, ?_, by rw [hnodes]; simp⟩
  · show (t.get_node x).1.nodes.getD t.nodes.length default = _
    rw [hnodes, List.getD_eq_getElem?_getD, List.getElem?_concat_length]
    rfl
  · intro j hj
    show (t.get_node x).1.nodes.getD j default = t.nodes.getD j default
    rw [hnodes]
    by_cases hjl : j < t.nodes.length
    · simp [List.getD_eq_getElem?_getD, List.getElem?_append_left hjl]
    · simp [List.getD_eq_getElem?_getD,
        List.getElem?_eq_none (show t.nodes.length ≤ j by omega),
        List.getElem?_eq_none (show (t.nodes ++ [Node.new x]).length ≤ j by simp; omega)]

theorem RegionRep_stable_aux : ∀ k : Nat,
    (∀ (rt : RTree T) (t t' : Tree T) (base : Nat), rt.size ≤ k →
      t.nodes.length ≤ t'.nodes.length →
      (∀ j, base ≤ j → j < base + rt.size →
        (t'.nodeAt j).data = (t.nodeAt j).data ∧
        (t'.nodeAt j).first_child = (t.nodeAt j).first_child ∧
        (j ≠ base → (t'.nodeAt j).next_sib = (t.nodeAt j).next_sib)) →
      RegionRep t base rt → RegionRep t' base rt) ∧
    (∀ (cs : List (RTree T)) (t t' : Tree T) (base : Nat), sizeListR cs ≤ k →
      t.nodes.length ≤ t'.nodes.length →
      (∀ j, base ≤ j → j < base + sizeListR cs →
        (t'.nodeAt j).data = (t.nodeAt j).data ∧
        (t'.nodeAt j).first_child = (t.nodeAt j).first_child ∧
        (t'.nodeAt j).next_sib = (t.nodeAt j).next_sib) →
      RegionRepF t base cs → RegionRepF t' base cs) := by
  intro k
  induction k with
  | zero =>
      constructor
      · intro rt t t' base h
        exact absurd (le_trans (sizeR_pos rt) h) (by omega)
      · intro cs t t' base h hlen hag hrep
        cases cs with
        | nil => simp [RegionRepF]
        | cons c cs => exfalso; have := sizeR_pos c; simp [sizeListR] at h; omega
  | succ k ih =>
      have htree : ∀ (rt : RTree T) (t t' : Tree T) (base : Nat), rt.size ≤ k + 1 →
          t.nodes.length ≤ t'.nodes.length →
          (∀ j, base ≤ j → j < base + rt.size →
            (t'.nodeAt j).data = (t.nodeAt j).data ∧
            (t'.nodeAt j).first_child = (t.nodeAt j).first_child ∧
            (j ≠ base → (t'.nodeAt j).next_sib = (t.nodeAt j).next_sib)) →
          RegionRep t base rt → RegionRep t' base rt := by
        intro rt t t' base h hlen hag hrep
        cases rt with
        | node x cs =>
            have hsz : (RTree.node x cs).size = 1 + sizeListR cs := by simp [RTree.size]
            have hszf : sizeListR cs ≤ k := by omega
            rw [hsz] at hag
            simp only [RegionRep] at hrep ⊢
            obtain ⟨hdata, hchain, hrepf⟩ := hrep
            have hbase := hag base le_rfl (by omega)
            refine ⟨by rw [hbase.1, hdata], ?_, ?_⟩
            · rw [hbase.2.1]
              have hstable : chainN t' (sibFuel t) (t.nodeAt base).first_child =
                  some (rootsPos cs (base + 1)) := by
                refine chainN_stable t t' _ _ _ hchain ?_
                intro c hc
                have hb := rootsPos_bounds cs (base + 1) c hc
                exact (hag c (by omega) (by omega)).2.2 (by omega)
              exact chainN_mono t' _ _ _ _ hstable (by unfold sibFuel; omega)
            · refine ih.2 cs t t' (base + 1) hszf hlen ?_ hrepf
              intro j hj1 hj2
              have h3 := hag j (by omega) (by omega)
              exact ⟨h3.1, h3.2.1, h3.2.2 (by omega)⟩
      refine ⟨htree, ?_⟩
      intro cs t t' base h hlen hag hrep
      cases cs with
      | nil => simp [RegionRepF]
      | cons c cs =>
          simp only [RegionRepF] at hrep ⊢
          obtain ⟨hr1, hr2⟩ := hrep
          have hc1 : 1 ≤ c.size := sizeR_pos c
          have h1 : c.size ≤ k + 1 := by simp [sizeListR] at h; omega
          have h2 : sizeListR cs ≤ k := by simp [sizeListR] at h; omega
          simp only [sizeListR] at hag
          refine ⟨htree c t t' base h1 hlen ?_ hr1,
            ih.2 cs t t' (base + c.size) h2 hlen ?_ hr2⟩
          · intro j hj1 hj2
            have h3 := hag j hj1 (by omega)
            exact ⟨h3.1, h3.2.1, fun _ => h3.2.2⟩
          · intro j hj1 hj2
            exact hag j (by omega) (by omega)

theorem RegionRep_stable (rt : RTree T) (t t' : Tree T) (base : Nat)
    (hlen : t.nodes.length ≤ t'.nodes.length)
    (hag : ∀ j, base ≤ j → j < base + rt.size →
      (t'.nodeAt j).data = (t.nodeAt j).data ∧
      (t'.nodeAt j).first_child = (t.nodeAt j).first_child ∧
      (j ≠ base → (t'.nodeAt j).next_sib = (t.nodeAt j).next_sib))
    (h : RegionRep t base rt) : RegionRep t' base rt :=
  (RegionRep_stable_aux rt.size).1 rt t t' base le_rfl hlen hag h

theorem append_child_chain (t : Tree T) (N new : Nat)
    (hN : N < t.nodes.length) (hnew : new < t.nodes.length) (hNnew : N ≠ new)
    (hnewnil : (t.nodeAt new).next_sib = none)
    (hchain : chainN t (sibFuel t) (t.nodeAt N).first_child = some (childIds t N))
    (hkids_range : ∀ c ∈ childIds t N, c < t.nodes.length)
    (hnodup : (childIds t N).Nodup)
    (hNself : N ∉ childIds t N)
    (hnewself : new ∉ childIds t N)
    (hlast : (t.nodeAt N).last_child = (childIds t N).getLast?) :
    childIds (t.append_child N new) N = childIds t N ++ [new] ∧
    chainN (t.append_child N new) (sibFuel (t.append_child N new))
      ((t.append_child N new).nodeAt N).first_child = some (childIds t N ++ [new]) ∧
    ((t.append_child N new).nodeAt N).last_child = some new ∧
    (((t.append_child N new).nodeAt N).data = (t.nodeAt N).data ∧
      ((t.append_child N new).nodeAt N).next_sib = (t.nodeAt N).next_sib ∧
      ((t.append_child N new).nodeAt N).prev_sib = (t.nodeAt N).prev_sib ∧
      ((t.append_child N new).nodeAt N).parent = (t.nodeAt N).parent) ∧
    (∀ j, j ≠ new → j ≠ N → (t.nodeAt N).last_child ≠ some j →
      (t.append_child N new).nodeAt j = t.nodeAt j) ∧
    (∀ q, (t.nodeAt N).last_child = some q →
      (t.append_child N new).nodeAt q = { t.nodeAt q with next_sib := some new }) ∧
    (t.append_child N new).nodeAt new =
      { t.nodeAt new with
        prev_sib := (t.nodeAt N).last_child
        parent := some N } ∧
    (t.append_child N new).nodes.length = t.nodes.length ∧
    (t.append_child N new).free = t.free ∧
    (t.append_child N new).root = t.root ∧
    (t.append_child N new).len = t.len := by
  have hlcN : (t.nodeAt N).last_child ≠ some N := by
    rw [hlast]; intro hcon; exact hNself (List.mem_of_mem_getLast? hcon)
  have hlcnew : (t.nodeAt N).last_child ≠ some new := by
    rw [hlast]; intro hcon; exact hnewself (List.mem_of_mem_getLast? hcon)
  have hlcrange : ∀ q, (t.nodeAt N).last_child = some q → q < t.nodes.length := by
    rw [hlast]; intro q hq; exact hkids_range q (List.mem_of_mem_getLast? hq)
  obtain ⟨P1, P2, P3, P4, P5, P6, P7, P8⟩ :=
    append_child_spec t N new hN hnew hNnew hlcN hlcnew hlcrange
  have hnwnil : ((t.append_child N new).nodeAt new).next_sib = none := by
    rw [P1]
    show (t.nodeAt new).next_sib = none
    exact hnewnil
  have hdataN : ((t.append_child N new).nodeAt N).data = (t.nodeAt N).data := by
    rw [P2]
  have hnextN : ((t.append_child N new).nodeAt N).next_sib = (t.nodeAt N).next_sib := by
    rw [P2]
  have hprevN : ((t.append_child N new).nodeAt N).prev_sib = (t.nodeAt N).prev_sib := by
    rw [P2]
  have hparN : ((t.append_child N new).nodeAt N).parent = (t.nodeAt N).parent := by
    rw [P2]
  have hlcN2 : ((t.append_child N new).nodeAt N).last_child = some new := by
    rw [P2]
  have hmain : chainN (t.append_child N new) (sibFuel (t.append_child N new))
      ((t.append_child N new).nodeAt N).first_child = some (childIds t N ++ [new]) := by
    rcases hql : (childIds t N).getLast? with _ | q
    · have hnil : childIds t N = [] := List.getLast?_eq_none_iff.mp hql
      have hstart : (t.nodeAt N).first_child = none :=
        chainN_nil_start t (sibFuel t) _ (by rw [hchain, hnil])
      have hfc2 : ((t.append_child N new).nodeAt N).first_child = some new := by
        rw [P2]
        show (if (t.nodeAt N).first_child.isNone then some new
          else (t.nodeAt N).first_child) = some new
        rw [hstart]
        rfl
      rw [hfc2, hnil]
      have hsf : sibFuel (t.append_child N new) = (t.append_child N new).nodes.length + 1 := rfl
      rw [hsf, chainN_singleton _ _ _ hnwnil]
      rfl
    · have hqmem : q ∈ childIds t N := List.mem_of_mem_getLast? hql
      have hne0 : childIds t N ≠ [] := by
        intro h
        rw [h] at hqmem
        cases hqmem
      have hgl : (childIds t N).getLast hne0 = q := by
        have h2 := List.getLast?_eq_getLast (childIds t N) hne0
        rw [hql] at h2
        exact (Option.some.inj h2).symm
      have hdecomp : (childIds t N).dropLast ++ [q] = childIds t N := by
        rw [← hgl]
        exact List.dropLast_concat_getLast hne0
      have hq_ne_nw : q ≠ new := fun h => hnewself (h ▸ hqmem)
      have hq_ne_N : q ≠ N := fun h => hNself (h ▸ hqmem)
      have hq_not_drop : q ∉ (childIds t N).dropLast := by
        have hnd : ((childIds t N).dropLast ++ [q]).Nodup := by rw [hdecomp]; exact hnodup
        intro hmem
        rw [List.nodup_append] at hnd
        exact hnd.2.2 hmem (List.mem_singleton_self q)
      have hlastq : (t.nodeAt N).last_child = some q := by rw [hlast, hql]
      have hqnew : ((t.append_child N new).nodeAt q).next_sib = some new := by
        rw [P3 q hlastq]
      have hagree : ∀ c ∈ (childIds t N).dropLast,
          ((t.append_child N new).nodeAt c).next_sib = (t.nodeAt c).next_sib := by
        intro c hc
        have hcmem : c ∈ childIds t N := by
          rw [← hdecomp]
          exact List.mem_append_left _ hc
        have hc_ne_nw : c ≠ new := fun h => hnewself (h ▸ hcmem)
        have hc_ne_N : c ≠ N := fun h => hNself (h ▸ hcmem)
        have hc_ne_q : (t.nodeAt N).last_child ≠ some c := by
          rw [hlastq]
          intro h
          exact hq_not_drop ((Option.some.inj h) ▸ hc)
        rw [P4 c hc_ne_nw hc_ne_N hc_ne_q]
      have hlen_le : (childIds t N).length ≤ t.nodes.length :=
        nodup_lt_length_le _ _ hnodup hkids_range
      have hlen_pos : 0 < (childIds t N).length := List.length_pos_of_ne_nil hne0
      have hdl : (childIds t N).dropLast.length = (childIds t N).length - 1 := by
        simp [List.length_dropLast]
      have hold : chainN t (sibFuel t) (t.nodeAt N).first_child =
          some ((childIds t N).dropLast ++ [q]) := by
        rw [hdecomp]
        exact hchain
      have hsnoc := chainN_snoc t (t.append_child N new) new q hqnew hnwnil
        (childIds t N).dropLast (sibFuel t) (sibFuel (t.append_child N new))
        ((t.nodeAt N).first_child) hold hagree
        (by
          show (childIds t N).dropLast.length + 2 ≤ (t.append_child N new).nodes.length + 1
          rw [P5, hdl]
          omega)
      have hstart_some : (t.nodeAt N).first_child.isNone = false := by
        rcases hh : (t.nodeAt N).first_child with _ | h0
        · exfalso
          apply hne0
          rw [childIds_def, hh]
          cases hsf : sibFuel t <;> simp [chainN]
        · rfl
      have hfc2 : ((t.append_child N new).nodeAt N).first_child =
          (t.nodeAt N).first_child := by
        rw [P2]
        show (if (t.nodeAt N).first_child.isNone then some new
          else (t.nodeAt N).first_child) = (t.nodeAt N).first_child
        rw [hstart_some]
        rfl
      rw [hfc2, hsnoc]
      rw [hdecomp]
  refine ⟨?_, hmain, hlcN2, ⟨hdataN, hnextN, hprevN, hparN⟩, P4, P3, P1, P5, P6, P7, P8⟩
  rw [childIds_def, hmain]
  rfl

/-- A walk starting at `none` is the empty chain at any fuel. -/
theorem chainN_none (t : Tree T) (F : Nat) : chainN t F none = some [] := by
  cases F <;> simp [chainN]

theorem push_spec_aux : ∀ k : Nat,
    (∀ (rt : RTree T) (t : Tree T) (p base : Nat), rt.size ≤ k → BuildInv t p base →
      PushTreeSpec t p base rt) ∧
    (∀ (cs : List (RTree T)) (t : Tree T) (p base : Nat), sizeListR cs ≤ k →
      BuildInv t p base → PushForestSpec t p base cs) := by
  have hnil : ∀ (t : Tree T) (p base : Nat), BuildInv t p base →
      PushForestSpec t p base ([] : List (RTree T)) := by
    intro t p base hinv
    have he : pushForest t p ([] : List (RTree T)) = t := by simp [pushForest]
    unfold PushForestSpec
    rw [he]
    refine ⟨by simp [sizeListR], hinv.1, rfl, by simp [sizeListR],
      fun j _ _ _ => rfl, fun q _ hq => absurd rfl hq,
      ⟨rfl, rfl, rfl, rfl⟩, by simp [rootsPos], hinv, by simp [RegionRepF]⟩
  intro k
  induction k with
  | zero =>
      constructor
      · intro rt t p base hsz
        exact absurd (le_trans (sizeR_pos rt) hsz) (by omega)
      · intro cs t p base hsz hinv
        cases cs with
        | nil => exact hnil t p base hinv
        | cons c cs => exfalso; have := sizeR_pos c; simp [sizeListR] at hsz; omega
  | succ k ih =>
      have htree : ∀ (rt : RTree T) (t : Tree T) (p base : Nat), rt.size ≤ k + 1 →
          BuildInv t p base → PushTreeSpec t p base rt := by
        intro rt t p base hsz hinv
        obtain ⟨hfree, hpb, hbl, hchain, hnodup, hkids, hlast⟩ := hinv
        cases rt with
        | node x cs =>
        have hsize : (RTree.node x cs).size = 1 + sizeListR cs := by simp [RTree.size]
        have hszf : sizeListR cs ≤ k := by omega
        obtain ⟨hMa, hnodesa, hfreea, hroota, hlena⟩ := get_node_none_spec t x hfree
        obtain ⟨haM, haPres, halen⟩ := get_node_none_nodeAt t x hfree
        have hpnotin : p ∉ childIds t p := fun hm => by have := (hkids p hm).1; omega
        have hMnotin : t.nodes.length ∉ childIds t p := fun hm => by
          have := (hkids t.nodes.length hm).2; omega
        have hchild_a : childIds (t.get_node x).1 p = childIds t p := by
          refine childIds_stable t (t.get_node x).1 p (by omega) ?_ (by rw [hchain]; rfl) ?_
          · rw [haPres p (by omega)]
          · intro c hc
            rw [haPres c (by have := (hkids c hc).2; omega)]
        have hlcta : ((t.get_node x).1.nodeAt p).last_child = (t.nodeAt p).last_child := by
          rw [haPres p (by omega)]
        have hchain_a : chainN (t.get_node x).1 (sibFuel (t.get_node x).1)
            ((t.get_node x).1.nodeAt p).first_child = some (childIds (t.get_node x).1 p) := by
          rw [hchild_a, haPres p (by omega)]
          refine chainN_mono _ (sibFuel t) _ _ _ ?_ (by unfold sibFuel; omega)
          refine chainN_stable t _ (sibFuel t) _ _ hchain ?_
          intro c hc
          rw [haPres c (by have := (hkids c hc).2; omega)]
        obtain ⟨A1, A2, A3, ⟨A4a, A4b, A4c, A4d⟩, A5, A6, A7, A8, A9, A10, A11⟩ :=
          append_child_chain (t.get_node x).1 p t.nodes.length
            (by omega) (by omega) (by omega)
            (by rw [haM]; rfl)
            hchain_a
            (by intro c hc; rw [hchild_a] at hc; have := (hkids c hc).2; omega)
            (by rw [hchild_a]; exact hnodup)
            (by rw [hchild_a]; exact hpnotin)
            (by rw [hchild_a]; exact hMnotin)
            (by rw [hlcta, hchild_a]; exact hlast)
        set tb := Tree.append_child (t.get_node x).1 p t.nodes.length with htbdef
        have htb_len : tb.nodes.length = t.nodes.length + 1 := by rw [A8, halen]
        have htb_free : tb.free = none := by rw [A9, hfreea]
        have htb_root : tb.root = t.root := by rw [A10, hroota]
        have htb_llen : tb.len = t.len + 1 := by rw [A11, hlena]
        have hfcM : (tb.nodeAt t.nodes.length).first_child = none := by
          rw [A7]
          show ((t.get_node x).1.nodeAt t.nodes.length).first_child = none
          rw [haM]
          rfl
        have hlcM : (tb.nodeAt t.nodes.length).last_child = none := by
          rw [A7]
          show ((t.get_node x).1.nodeAt t.nodes.length).last_child = none
          rw [haM]
          rfl
        have hdataM : (tb.nodeAt t.nodes.length).data = some x := by
          rw [A7]
          show ((t.get_node x).1.nodeAt t.nodes.length).data = some x
          rw [haM]
          rfl
        have hcm : childIds tb t.nodes.length = [] := by
          rw [childIds_def, hfcM, chainN_none]
          rfl
        have hinv2 : BuildInv tb t.nodes.length (t.nodes.length + 1) := by
          unfold BuildInv
          refine ⟨htb_free, by omega, by omega, ?_,
            by rw [hcm]; exact List.nodup_nil, ?_, ?_⟩
          · rw [hfcM, chainN_none, hcm]
          · intro c hc
            rw [hcm] at hc
            cases hc
          · rw [hcm, hlcM]
            rfl
        obtain ⟨F1, F2, F3, F4, F5, F6, ⟨F7a, F7b, F7c, F7d⟩, F8, F9, F10⟩ :=
          ih.2 cs tb t.nodes.length (t.nodes.length + 1) hszf hinv2
        have hPT : pushTree t p (RTree.node x cs) = pushForest tb t.nodes.length cs := by
          rw [htbdef, ← hMa]
          simp [pushTree]
        have e3p : (pushForest tb t.nodes.length cs).nodeAt p = tb.nodeAt p :=
          F5 p (by omega) (by omega) (by rw [hlcM]; simp)
        have hagree2 : ∀ c ∈ childIds (t.get_node x).1 p ++ [t.nodes.length],
            ((pushForest tb t.nodes.length cs).nodeAt c).next_sib = (tb.nodeAt c).next_sib := by
          intro c hc
          rcases List.mem_append.1 hc with hc | hc
          · rw [hchild_a] at hc
            have := (hkids c hc).2
            have e := F5 c (by omega) (by omega) (by rw [hlcM]; simp)
            rw [e]
          · rw [List.mem_singleton] at hc
            subst hc
            exact F7b
        have hchainb : chainN (pushForest tb t.nodes.length cs)
            (sibFuel (pushForest tb t.nodes.length cs))
            (((pushForest tb t.nodes.length cs).nodeAt p).first_child) =
            some (childIds t p ++ [t.nodes.length]) := by
          have h1 : chainN (pushForest tb t.nodes.length cs) (sibFuel tb)
              ((tb.nodeAt p).first_child) =
              some (childIds (t.get_node x).1 p ++ [t.nodes.length]) :=
            chainN_stable tb _ _ _ _ A2 hagree2
          have h2 := chainN_mono (pushForest tb t.nodes.length cs) (sibFuel tb)
            (sibFuel (pushForest tb t.nodes.length cs)) _ _ h1 (by unfold sibFuel; omega)
          rw [e3p]
          rw [hchild_a] at h2
          exact h2
        have hchildb : childIds (pushForest tb t.nodes.length cs) p =
            childIds t p ++ [t.nodes.length] := by
          rw [childIds_def, hchainb]
          rfl
        unfold PushTreeSpec
        rw [hPT, hsize]
        refine ⟨by rw [F1, htb_len]; omega, F2, by rw [F3, htb_root],
          by rw [F4, htb_llen]; omega, ?_, ?_, ?_, hchildb, ?_, ?_⟩
        · intro j hj hjp hjl
          have e3 : (pushForest tb t.nodes.length cs).nodeAt j = tb.nodeAt j :=
            F5 j (by omega) (by omega) (by rw [hlcM]; simp)
          have e2 : tb.nodeAt j = (t.get_node x).1.nodeAt j :=
            A5 j (by omega) hjp (by rw [hlcta]; exact hjl)
          rw [e3, e2, haPres j (by omega)]
        · intro q hq
          have hqmem : q ∈ childIds t p := by
            rw [hlast] at hq
            exact List.mem_of_mem_getLast? hq
          have hql := (hkids q hqmem).2
          have hqb := (hkids q hqmem).1
          have e3 : (pushForest tb t.nodes.length cs).nodeAt q = tb.nodeAt q :=
            F5 q (by omega) (by omega) (by rw [hlcM]; simp)
          have e2 : tb.nodeAt q =
              { (t.get_node x).1.nodeAt q with next_sib := some t.nodes.length } :=
            A6 q (by rw [hlcta]; exact hq)
          rw [e3, e2, haPres q (by omega)]
        · refine ⟨?_, ?_, ?_, ?_⟩ <;> rw [e3p]
          · rw [A4a, haPres p (by omega)]
          · rw [A4b, haPres p (by omega)]
          · rw [A4c, haPres p (by omega)]
          · rw [A4d, haPres p (by omega)]
        · unfold BuildInv
          refine ⟨F2, by omega, by omega, ?_, ?_, ?_, ?_⟩
          · rw [hchildb]
            exact hchainb
          · rw [hchildb, List.nodup_append]
            refine ⟨hnodup, List.nodup_singleton _, ?_⟩
            intro c hc hm
            rw [List.mem_singleton] at hm
            subst hm
            exact hMnotin hc
          · intro c hc
            rw [hchildb] at hc
            rcases List.mem_append.1 hc with hc | hc
            · have := hkids c hc
              exact ⟨this.1, by omega⟩
            · rw [List.mem_singleton] at hc
              subst hc
              exact ⟨by omega, by omega⟩
          · rw [hchildb, e3p, A3, List.getLast?_concat]
        · simp only [RegionRep]
          refine ⟨by rw [F7a, hdataM], ?_, ?_⟩
          · have hc9 := F9.2.2.2.1
            rw [F8, hcm, htb_len] at hc9
            simpa using hc9
          · rw [htb_len] at F10
            exact F10
      refine ⟨htree, ?_⟩
      intro cs t p base hsz hinv
      cases cs with
      | nil => exact hnil t p base hinv
      | cons c cs' =>
        have h1 : c.size ≤ k + 1 := by simp [sizeListR] at hsz; omega
        have h2 : sizeListR cs' ≤ k := by
          have := sizeR_pos c
          simp [sizeListR] at hsz
          omega
        obtain ⟨T1, T2, T3, T4, T5, T6, ⟨T7a, T7b, T7c, T7d⟩, T8, T9, T10⟩ :=
          htree c t p base h1 hinv
        obtain ⟨F1, F2, F3, F4, F5, F6, ⟨F7a, F7b, F7c, F7d⟩, F8, F9, F10⟩ :=
          ih.2 cs' (pushTree t p c) p base h2 T9
        obtain ⟨hfree, hpb, hbl, hchain, hnodup, hkids, hlast⟩ := hinv
        have hPFc : pushForest t p (c :: cs') = pushForest (pushTree t p c) p cs' := by
          simp [pushForest]
        have hlast1 : ((pushTree t p c).nodeAt p).last_child = some t.nodes.length := by
          have h := T9.2.2.2.2.2.2
          rw [T8, List.getLast?_concat] at h
          exact h
        have hsz' : sizeListR (c :: cs') = c.size + sizeListR cs' := by simp [sizeListR]
        unfold PushForestSpec
        rw [hPFc, hsz']
        refine ⟨by rw [F1, T1]; omega, F2, by rw [F3, T3], by rw [F4, T4]; omega,
          ?_, ?_, ?_, ?_, F9, ?_⟩
        · intro j hj hjp hjl
          have e1 : (pushTree t p c).nodeAt j = t.nodeAt j := T5 j hj hjp hjl
          have e2 : (pushForest (pushTree t p c) p cs').nodeAt j = (pushTree t p c).nodeAt j :=
            F5 j (by omega) hjp
              (by rw [hlast1]; intro hcon; have := Option.some.inj hcon; omega)
          rw [e2, e1]
        · intro q hq _
          have hqmem : q ∈ childIds t p := by
            rw [hlast] at hq
            exact List.mem_of_mem_getLast? hq
          have hq2 := (hkids q hqmem).2
          have hqb := (hkids q hqmem).1
          have e1 : (pushTree t p c).nodeAt q =
              { t.nodeAt q with next_sib := some t.nodes.length } := T6 q hq
          have e2 : (pushForest (pushTree t p c) p cs').nodeAt q = (pushTree t p c).nodeAt q :=
            F5 q (by omega) (by omega)
              (by rw [hlast1]; intro hcon; have := Option.some.inj hcon; omega)
          rw [e2, e1]
        · exact ⟨by rw [F7a, T7a], by rw [F7b, T7b], by rw [F7c, T7c], by rw [F7d, T7d]⟩
        · rw [F8, T8, T1, List.append_assoc]
          simp [rootsPos]
        · simp only [RegionRepF]
          constructor
          · cases cs' with
            | nil =>
                have he : pushForest (pushTree t p c) p ([] : List (RTree T)) =
                    pushTree t p c := by simp [pushForest]
                rw [he]
                exact T10
            | cons d ds =>
                refine RegionRep_stable c (pushTree t p c) _ t.nodes.length (by omega) ?_ T10
                intro j hj1 hj2
                by_cases hjM : j = t.nodes.length
                · subst hjM
                  have e := F6 t.nodes.length hlast1 (by simp)
                  rw [e]
                  exact ⟨rfl, rfl, fun hne => absurd rfl hne⟩
                · have e := F5 j (by omega) (by omega)
                    (by rw [hlast1]; intro hcon; exact hjM (Option.some.inj hcon).symm)
                  rw [e]
                  exact ⟨rfl, rfl, fun _ => rfl⟩
          · rw [T1] at F10
            exact F10

theorem decode_push (enc : T → List Nat) (dec : List Nat → Except ByteErr (T × List Nat))
    (hdec : ∀ (v : T) (rest : List Nat), dec (enc v ++ rest) = .ok (v, rest)) : ∀ k : Nat,
    (∀ (cs : List (RTree T)), sizeListR cs ≤ k →
      ∀ (fuel : Nat) (t : Tree T) (parent : Nat) (rest : List Nat),
      heightListR cs + 1 ≤ fuel → cs.length < 2 ^ 32 →
      (∀ pc ∈ flatListR cs, pc.2 < 2 ^ 32) →
      fbHelper dec fuel t parent (u32IntoBytes cs.length ++ (encListR enc cs ++ rest)) =
        .ok (pushForest t parent cs, rest)) ∧
    (∀ (cs : List (RTree T)), sizeListR cs ≤ k →
      ∀ (fuel : Nat) (t : Tree T) (parent : Nat) (rest : List Nat),
      heightListR cs ≤ fuel →
      (∀ pc ∈ flatListR cs, pc.2 < 2 ^ 32) →
      fbLoop dec fuel cs.length t parent (encListR enc cs ++ rest) =
        .ok (pushForest t parent cs, rest)) := by
  intro k
  induction k with
  | zero =>
      constructor
      · intro cs hsz fuel t parent rest hh hc32 hcnt
        cases cs with
        | cons c cs => exfalso; have := sizeR_pos c; simp [sizeListR] at hsz; omega
        | nil =>
          obtain ⟨f, rfl⟩ : ∃ f, fuel = f + 1 := ⟨fuel - 1, by omega⟩
          simp only [List.length_nil, fbHelper]
          rw [u32_round 0 (by norm_num)]
          simp [encListR, fbLoop, pushForest]
      · intro cs hsz fuel t parent rest hh hcnt
        cases cs with
        | cons c cs => exfalso; have := sizeR_pos c; simp [sizeListR] at hsz; omega
        | nil => simp [encListR, fbLoop, pushForest]
  | succ k ih =>
      have hloop : ∀ (cs : List (RTree T)), sizeListR cs ≤ k + 1 →
          ∀ (fuel : Nat) (t : Tree T) (parent : Nat) (rest : List Nat),
          heightListR cs ≤ fuel →
          (∀ pc ∈ flatListR cs, pc.2 < 2 ^ 32) →
          fbLoop dec fuel cs.length t parent (encListR enc cs ++ rest) =
            .ok (pushForest t parent cs, rest) := by
        intro cs hsz fuel t parent rest hh hcnt
        cases cs with
        | nil => simp [encListR, fbLoop, pushForest]
        | cons c cs' =>
          cases c with
          | node x gs =>
          have hs1 : sizeListR gs ≤ k := by simp [sizeListR, RTree.size] at hsz; omega
          have hs2 : sizeListR cs' ≤ k := by
            have := sizeR_pos (RTree.node x gs)
            simp [sizeListR] at hsz
            omega
          simp only [heightListR, RTree.height] at hh
          obtain ⟨hh1, hh2⟩ := max_le_iff.mp hh
          have hcnt0 : gs.length < 2 ^ 32 :=
            hcnt (x, gs.length) (by simp [flatListR, RTree.flat])
          have hcntg : ∀ pc ∈ flatListR gs, pc.2 < 2 ^ 32 := fun pc hpc =>
            hcnt pc (by simp [flatListR, RTree.flat, hpc])
          have hcntc : ∀ pc ∈ flatListR cs', pc.2 < 2 ^ 32 := fun pc hpc =>
            hcnt pc (by simp [flatListR, RTree.flat, hpc])
          have hb : encListR enc (RTree.node x gs :: cs') ++ rest =
              enc x ++ (u32IntoBytes gs.length ++
                (encListR enc gs ++ (encListR enc cs' ++ rest))) := by
            simp [encListR, encR, List.append_assoc]
          rw [hb, List.length_cons]
          simp only [fbLoop]
          rw [hdec]
          dsimp only
          rw [ih.1 gs hs1 fuel
            (Tree.append_child (t.get_node x).1 parent (t.get_node x).2) (t.get_node x).2
            (encListR enc cs' ++ rest) hh1 hcnt0 hcntg]
          dsimp only
          rw [ih.2 cs' hs2 fuel
            (pushForest (Tree.append_child (t.get_node x).1 parent (t.get_node x).2)
              (t.get_node x).2 gs) parent rest hh2 hcntc]
          simp [pushForest, pushTree]
      refine ⟨?_, hloop⟩
      intro cs hsz fuel t parent rest hh hc32 hcnt
      obtain ⟨f, rfl⟩ : ∃ f, fuel = f + 1 := ⟨fuel - 1, by omega⟩
      simp only [fbHelper]
      rw [u32_round cs.length hc32]
      dsimp only
      exact hloop cs hsz f t parent rest (by omega) hcnt

theorem shape_of_region_aux [Inhabited T] : ∀ k : Nat,
    (∀ (rt : RTree T), rt.size ≤ k → ∀ (t : Tree T) (base cur F : Nat),
      RegionRep t base rt → rt.height ≤ F →
      (subTreeInfoAux t F base cur).map (fun n => (payloadD t n.id, n.child_count)) =
        rt.flat) ∧
    (∀ (cs : List (RTree T)), sizeListR cs ≤ k → ∀ (t : Tree T) (b cur F : Nat),
      RegionRepF t b cs → heightListR cs ≤ F →
      ((rootsPos cs b).flatMap fun c => subTreeInfoAux t F c cur).map
        (fun n => (payloadD t n.id, n.child_count)) = flatListR cs) := by
  intro k
  induction k with
  | zero =>
      constructor
      · intro rt h
        exact absurd (le_trans (sizeR_pos rt) h) (by omega)
      · intro cs h t b cur F hrep hh
        cases cs with
        | nil => simp [rootsPos, flatListR]
        | cons c cs => exfalso; have := sizeR_pos c; simp [sizeListR] at h; omega
  | succ k ih =>
      have htree : ∀ (rt : RTree T), rt.size ≤ k + 1 → ∀ (t : Tree T) (base cur F : Nat),
          RegionRep t base rt → rt.height ≤ F →
          (subTreeInfoAux t F base cur).map (fun n => (payloadD t n.id, n.child_count)) =
            rt.flat := by
        intro rt h t base cur F hrep hh
        cases rt with
        | node x cs =>
          have hszf : sizeListR cs ≤ k := by simp [RTree.size] at h; omega
          simp only [RegionRep] at hrep
          obtain ⟨hdata, hchain, hrepf⟩ := hrep
          obtain ⟨F0, rfl⟩ : ∃ F0, F = F0 + 1 := ⟨F - 1, by simp [RTree.height] at hh; omega⟩
          have hcid : childIds t base = rootsPos cs (base + 1) := by
            rw [childIds_def, hchain]
            rfl
          simp only [subTreeInfoAux, RTree.flat, List.map_cons]
          congr 1
          · simp [payloadD, hdata, hcid, rootsPos_length]
          · rw [hcid]
            exact ih.2 cs hszf t (base + 1) (cur + 1) F0 hrepf
              (by simp [RTree.height] at hh; omega)
      refine ⟨htree, ?_⟩
      intro cs h t b cur F hrep hh
      cases cs with
      | nil => simp [rootsPos, flatListR]
      | cons c cs' =>
        simp only [RegionRepF] at hrep
        obtain ⟨hr1, hr2⟩ := hrep
        have h1 : c.size ≤ k + 1 := by simp [sizeListR] at h; omega
        have h2 : sizeListR cs' ≤ k := by have := sizeR_pos c; simp [sizeListR] at h; omega
        simp only [heightListR] at hh
        obtain ⟨hh1, hh2⟩ := max_le_iff.mp hh
        simp only [rootsPos, flatListR, List.flatMap_cons, List.map_append]
        congr 1
        · exact htree c h1 t b cur F hr1 hh1
        · exact ih.2 cs' h2 t (b + c.size) cur F hr2 hh2

/-- C1: encoding then decoding reproduces the tree's preorder payloads and
child counts.  Hypotheses: the payload codec inverts itself on any suffix;
every child count fits in the `u32` the source casts it to (counts are at
most `nodes.length + 1`); and the traversal the encoder runs terminates
(`travOk`, true of every tree reachable through the public API). -/
theorem C1_round_trip [Inhabited T] (enc : T → List Nat)
    (dec : List Nat → Except ByteErr (T × List Nat)) (t : Tree T)
    (hdec : ∀ (v : T) (rest : List Nat), dec (enc v ++ rest) = .ok (v, rest))
    (hsize : t.nodes.length + 1 < 2 ^ 32)
    (htrav : ∀ r, t.root = some r → travOk t (defaultFuel t) r = true) :
    ∃ u : Tree T, Tree.from_bytes dec (t.into_bytes enc) = .ok u ∧
      u.shape = t.shape ∧ u.root.isSome = t.root.isSome := by
  rcases hroot : t.root with _ | r
  · refine ⟨Tree.new, ?_, ?_, by simp [hroot, Tree.new]⟩
    · simp [Tree.into_bytes, Tree.from_bytes, hroot, boolIntoBytes, boolFromBytes]
    · simp [Tree.shape, hroot, Tree.new]
  · have htr := htrav r hroot
    have henc : t.into_bytes enc = 1 :: encR enc (extractR t (defaultFuel t) r) := by
      unfold Tree.into_bytes
      rw [hroot]
      rw [encR_eq_flat, ← extract_flat t (defaultFuel t) r 0 htr]
      simp [boolIntoBytes, List.flatMap_map]
    rcases hE : extractR t (defaultFuel t) r with ⟨x, cs⟩
    have hcnt : ∀ pc ∈ (RTree.node x cs).flat, pc.2 < 2 ^ 32 := by
      intro pc hpc
      rw [← hE] at hpc
      exact lt_of_le_of_lt (extract_counts_le t (defaultFuel t) r pc hpc)
        (by unfold sibFuel; omega)
    have hcnt0 : cs.length < 2 ^ 32 := hcnt (x, cs.length) (by simp [RTree.flat])
    have hcntf : ∀ pc ∈ flatListR cs, pc.2 < 2 ^ 32 := fun pc hpc =>
      hcnt pc (by simp [RTree.flat, hpc])
    have h1 : RTree.height (RTree.node x cs) ≤ (encR enc (RTree.node x cs)).length :=
      le_trans (heightR_le_size _) (size_le_encR enc _)
    have h2 : RTree.height (RTree.node x cs) = heightListR cs + 1 := by simp [RTree.height]
    have hdecode : Tree.from_bytes dec (t.into_bytes enc) =
        .ok (pushForest (Tree.new_with_root x) 0 cs) := by
      rw [henc, hE]
      have hb1 : boolFromBytes (1 :: encR enc (RTree.node x cs)) =
          .ok (true, encR enc (RTree.node x cs)) := rfl
      have hb2 : encR enc (RTree.node x cs) =
          enc x ++ (u32IntoBytes cs.length ++ (encListR enc cs ++ [])) := by
        simp [encR, List.append_assoc]
      unfold Tree.from_bytes
      rw [hb1]
      dsimp only
      have hlen_eq : (enc x ++ (u32IntoBytes cs.length ++ (encListR enc cs ++ []))).length =
          (encR enc (RTree.node x cs)).length := by rw [← hb2]
      rw [hb2, hdec]
      dsimp only
      rw [(decode_push enc dec hdec (sizeListR cs)).1 cs le_rfl _ (Tree.new_with_root x) 0 []
        (by simp only [List.length_cons, hlen_eq]; omega) hcnt0 hcntf]
    have hcid0 : childIds (Tree.new_with_root x) 0 = [] := rfl
    have hinv0 : BuildInv (Tree.new_with_root x) 0 1 := by
      unfold BuildInv
      refine ⟨rfl, Nat.zero_lt_one, by simp [Tree.new_with_root], ?_, ?_, ?_, ?_⟩
      · rw [show ((Tree.new_with_root x).nodeAt 0).first_child = none from rfl, chainN_none,
          hcid0]
      · rw [hcid0]
        exact List.nodup_nil
      · intro c hc
        rw [hcid0] at hc
        cases hc
      · rw [hcid0]
        rfl
    obtain ⟨U1, U2, U3, U4, U5, U6, ⟨U7a, U7b, U7c, U7d⟩, U8, U9, U10⟩ :=
      (push_spec_aux (sizeListR cs)).2 cs (Tree.new_with_root x) 0 1 le_rfl hinv0
    have hroot_u : (pushForest (Tree.new_with_root x) 0 cs).root = some 0 := by
      rw [U3]
      rfl
    have hrepu : RegionRep (pushForest (Tree.new_with_root x) 0 cs) 0 (RTree.node x cs) := by
      simp only [RegionRep]
      refine ⟨by rw [U7a]; rfl, ?_, ?_⟩
      · have hc := U9.2.2.2.1
        rw [U8, hcid0, show (Tree.new_with_root x).nodes.length = 1 from rfl] at hc
        simpa using hc
      · have h10 := U10
        rw [show (Tree.new_with_root x).nodes.length = 1 from rfl] at h10
        simpa using h10
    have hheight_u : (RTree.node x cs).height ≤
        defaultFuel (pushForest (Tree.new_with_root x) 0 cs) := by
      unfold defaultFuel
      rw [U1, show (Tree.new_with_root x).nodes.length = 1 from rfl]
      have := heightListR_le_size cs
      simp only [RTree.height]
      omega
    have hshape_u : (pushForest (Tree.new_with_root x) 0 cs).shape =
        (RTree.node x cs).flat := by
      unfold Tree.shape
      rw [hroot_u]
      exact (shape_of_region_aux (RTree.node x cs).size).1 _ le_rfl _ 0 0 _ hrepu hheight_u
    have hshape_t : t.shape = (RTree.node x cs).flat := by
      unfold Tree.shape
      rw [hroot, ← hE]
      exact extract_flat t (defaultFuel t) r 0 htr
    refine ⟨pushForest (Tree.new_with_root x) 0 cs, hdecode, ?_, ?_⟩
    · rw [hshape_u, hshape_t]
    · simp [hroot_u, hroot]

theorem C1_witness :
    ∃ u : Tree Nat,
      Tree.from_bytes
          (fun bs => match bs with
            | [] => .error .EndOfBytes
            | b :: rest => .ok (b, rest))
          (exTree.into_bytes fun v => [v]) = .ok u ∧
      u.shape = exTree.shape ∧ u.root.isSome = exTree.root.isSome :=
  C1_round_trip (fun v => [v])
    (fun bs => match bs with
      | [] => .error .EndOfBytes
      | b :: rest => .ok (b, rest))
    exTree
    (fun v rest => rfl)
    (by decide)
    (by
      intro r hr
      rw [show exTree.root = some 0 from by decide] at hr
      cases hr
      decide)

end Src
